import Mathlib

/-
Verification of the bodkin schema-inference engine (loicalleyne/bodkin).

This file gives a shallow embedding, in Lean 4, of the schema inference and
unification core of the repository:

  * `src/types.go`   — the leaf classifier `goType2Arrow` (string heuristics,
                       Go scalar types, `json.Number`, `time.Time`);
  * `src/schema.go`  — the `fieldPos` tree, `mapToArrow` / `sliceElemType`
                       (the walker), `getPath`, `graft`, `upgradeType`,
                       `UpgradableTypes` and the regular-expression matchers;
  * `src/bodkin.go`  — the `Bodkin` state, `NewBodkin` / `newBodkin`,
                       `Unify`, `UnifyAtPath`, `merge`, `Err`, `Schema`,
                       `Changes`, `Count`.

Records are modelled as already-decoded trees (ordered string-keyed maps,
lists and scalars), which is exactly the record format the specification
assigns to the core; JSON/byte decoding (`reader.InputMap` on strings) and
the mapstructure decoding of Go structs are out-of-scope collaborators and a
map input is passed through unchanged, as in the source.  Go `map` iteration
order is represented by the order of the association list.  Numeric payloads
of scalars are irrelevant to schema inference (the classifier looks only at
the dynamic type, except for `json.Number` and `string` whose text matters),
so numeric scalar constructors carry no payload.  `arrow.Field.Nullable` is
`true` on every field this code constructs and is therefore not modelled.
The per-node diagnostic accumulator `fieldPos.err` (an `errors.Join` chain
never read by any operation modelled here) is not modelled.

The population of the two ordered path stores `knownFields` and
`untypedFields` is code of this repository that is not present under `src/`
(only their declaration in `Bodkin`, and their readers `Err`, `CountPending`,
`Paths` and the `UnifyAtPath` mount check are); those insertions are
modelled from the spec, and are marked `Modelled from the spec:` below.
-/

/-- Arrow type identifiers (`arrow.Type` in arrow-go), restricted to the
identifiers this code manipulates.  `undef` stands for the id of the Go zero
`arrow.Field` whose `Type` interface is `nil` (it arises for the synthetic
element node of a nested list, which `sliceElemType` assigns without ever
stamping a field). -/
inductive TypeID where
  | NULL | BOOL
  | INT8 | INT16 | INT32 | INT64
  | UINT8 | UINT16 | UINT32 | UINT64
  | FLOAT16 | FLOAT32 | FLOAT64
  | STRING | BINARY
  | DATE32 | TIME64 | TIMESTAMP
  | LIST | STRUCT
  | undef
  deriving DecidableEq, Repr, Fintype

/-- Arrow data types as constructed by this code.  Scalars are the fixed
instances the source uses (`arrow.PrimitiveTypes.*`,
`arrow.FixedWidthTypes.*`, `arrow.BinaryTypes.*`); the two timestamp
instances that occur are `Timestamp_us` (no zone, from the classifier) and
`Timestamp_ms` (UTC zone, the `upgradeType` target).  A struct type carries
its ordered `(name, type)` fields; a list type carries its element type
(the element field is named `item` and nullable in arrow-go's `ListOf`). -/
inductive DataType where
  | undef
  | null
  | boolean
  | int8 | int16 | int32 | int64
  | uint8 | uint16 | uint32 | uint64
  | float16 | float32 | float64
  | utf8 | binary
  | date32
  | time64ns
  | timestampMsUTC
  | timestampUs
  | list (elem : DataType)
  | strukt (fields : List (String × DataType))
  deriving Repr

/-- `arrow.DataType.ID()`; `undef` is the (panicking, in Go) id of a `nil`
type, kept total here. -/
def DataType.id : DataType → TypeID
  | .undef => .undef
  | .null => .NULL
  | .boolean => .BOOL
  | .int8 => .INT8
  | .int16 => .INT16
  | .int32 => .INT32
  | .int64 => .INT64
  | .uint8 => .UINT8
  | .uint16 => .UINT16
  | .uint32 => .UINT32
  | .uint64 => .UINT64
  | .float16 => .FLOAT16
  | .float32 => .FLOAT32
  | .float64 => .FLOAT64
  | .utf8 => .STRING
  | .binary => .BINARY
  | .date32 => .DATE32
  | .time64ns => .TIME64
  | .timestampMsUTC => .TIMESTAMP
  | .timestampUs => .TIMESTAMP
  | .list _ => .LIST
  | .strukt _ => .STRUCT

mutual
/-- Structural equality of data types (`arrow.TypeEqual`). -/
def DataType.beq : DataType → DataType → Bool
  | .undef, .undef => true
  | .null, .null => true
  | .boolean, .boolean => true
  | .int8, .int8 => true
  | .int16, .int16 => true
  | .int32, .int32 => true
  | .int64, .int64 => true
  | .uint8, .uint8 => true
  | .uint16, .uint16 => true
  | .uint32, .uint32 => true
  | .uint64, .uint64 => true
  | .float16, .float16 => true
  | .float32, .float32 => true
  | .float64, .float64 => true
  | .utf8, .utf8 => true
  | .binary, .binary => true
  | .date32, .date32 => true
  | .time64ns, .time64ns => true
  | .timestampMsUTC, .timestampMsUTC => true
  | .timestampUs, .timestampUs => true
  | .list a, .list b => DataType.beq a b
  | .strukt fs, .strukt gs => DataType.fieldsBeq fs gs
  | _, _ => false

/-- Pointwise equality of ordered struct-field lists. -/
def DataType.fieldsBeq : List (String × DataType) → List (String × DataType) → Bool
  | [], [] => true
  | (n, t) :: xs, (m, u) :: ys =>
      n == m && DataType.beq t u && DataType.fieldsBeq xs ys
  | _, _ => false
end

/-- An `arrow.Field` as constructed by this code (nullability, constantly
`true`, and metadata, constantly absent, omitted). -/
structure FieldV where
  name : String
  ty : DataType
  deriving Repr

/-- `arrow.Field.Equal`: name and type equality. -/
def FieldV.beq (a b : FieldV) : Bool :=
  a.name == b.name && DataType.beq a.ty b.ty

/-- `UpgradableTypes` from `src/schema.go`: the only type ids accepted by the
gate at the top of `upgradeType` (checked against the NEW node's type). -/
def UpgradableTypes : List TypeID :=
  [.INT8, .INT16, .INT32, .INT64, .DATE32, .TIME64, .TIMESTAMP, .STRING]

/- ------------------------------------------------------------------ -/
/- Regular-expression matchers of `src/schema.go` (`registerTsMatchers`,
   `registerQuotedStringValueMatchers`), implemented as exact functional
   matchers over the character list.  Every such pattern is a sequence of
   maximal digit runs separated by non-digit delimiters, so the greedy
   scan below matches iff the backtracking regex does. -/
/- ------------------------------------------------------------------ -/

/-- Length of the leading digit run and the remainder. -/
def digitRun : List Char → Nat × List Char
  | [] => (0, [])
  | c :: cs =>
      if c.isDigit then
        let r := digitRun cs
        (r.1 + 1, r.2)
      else (0, c :: cs)

/-- Remainder after the leading run of space characters. -/
def spaceRun : List Char → List Char
  | [] => []
  | c :: cs => if c == ' ' then spaceRun cs else c :: cs

/-- Pattern `^\d{4}-\d{2}-\d{2}$` (`dateMatcher`). -/
def matchDateL (cs : List Char) : Bool :=
  let p1 := digitRun cs
  p1.1 == 4 &&
    match p1.2 with
    | '-' :: r2 =>
        let p2 := digitRun r2
        p2.1 == 2 &&
          match p2.2 with
          | '-' :: r3 =>
              let p3 := digitRun r3
              p3.1 == 2 && p3.2.isEmpty
          | _ => false
    | _ => false

/-- Pattern `^\d{1,2}:\d{1,2}:\d{1,2}(\.\d{1,6})?$` (`timeMatcher`). -/
def matchTimeL (cs : List Char) : Bool :=
  let p1 := digitRun cs
  (1 ≤ p1.1 && p1.1 ≤ 2) &&
    match p1.2 with
    | ':' :: r2 =>
        let p2 := digitRun r2
        (1 ≤ p2.1 && p2.1 ≤ 2) &&
          match p2.2 with
          | ':' :: r3 =>
              let p3 := digitRun r3
              (1 ≤ p3.1 && p3.1 ≤ 2) &&
                match p3.2 with
                | [] => true
                | '.' :: r4 =>
                    let p4 := digitRun r4
                    (1 ≤ p4.1 && p4.1 ≤ 6) && p4.2.isEmpty
                | _ => false
          | _ => false
    | _ => false

/-- Zone suffix `(Z|[+-]\d{2}:\d{2})$` of the first two timestamp patterns. -/
def matchZone2 : List Char → Bool
  | ['Z'] => true
  | c :: cs =>
      (c == '+' || c == '-') &&
        (let p1 := digitRun cs
         p1.1 == 2 &&
           match p1.2 with
           | ':' :: r2 =>
               let p2 := digitRun r2
               p2.1 == 2 && p2.2.isEmpty
           | _ => false)
  | _ => false

/-- Suffix `\d{2}:\d{2}:\d{2}(\.\d+)?(Z|[+-]\d{2}:\d{2})$` shared by the
first two timestamp patterns. -/
def matchHMSFracZone (cs : List Char) : Bool :=
  let p1 := digitRun cs
  p1.1 == 2 &&
    match p1.2 with
    | ':' :: r2 =>
        let p2 := digitRun r2
        p2.1 == 2 &&
          match p2.2 with
          | ':' :: r3 =>
              let p3 := digitRun r3
              p3.1 == 2 &&
                match p3.2 with
                | '.' :: r4 =>
                    let p4 := digitRun r4
                    p4.1 ≥ 1 && matchZone2 p4.2
                | rest => matchZone2 rest
          | _ => false
    | _ => false

/-- Prefix `^\d{4}-\d{2}-\d{2}` followed by the given separator; returns the
remainder on success. -/
def matchYMD (sep : Char) (cs : List Char) : Option (List Char) :=
  let p1 := digitRun cs
  if p1.1 == 4 then
    match p1.2 with
    | '-' :: r2 =>
        let p2 := digitRun r2
        if p2.1 == 2 then
          match p2.2 with
          | '-' :: r3 =>
              let p3 := digitRun r3
              if p3.1 == 2 then
                match p3.2 with
                | c :: r4 => if c == sep then some r4 else none
                | [] => none
              else none
          | _ => none
        else none
    | _ => none
  else none

/-- First timestamp pattern (ISO 8601):
`^\d{4}-\d{2}-\d{2}T\d{2}:\d{2}:\d{2}(\.\d+)?(Z|[+-]\d{2}:\d{2})$`. -/
def matchTs1 (cs : List Char) : Bool :=
  match matchYMD 'T' cs with
  | some r => matchHMSFracZone r
  | none => false

/-- Second timestamp pattern (RFC 3339 with a space instead of `T`). -/
def matchTs2 (cs : List Char) : Bool :=
  match matchYMD ' ' cs with
  | some r => matchHMSFracZone r
  | none => false

/-- Third timestamp pattern `^\d{4}-\d{2}-\d{2} \d{2}:\d{2}:\d{2}$`. -/
def matchTs3 (cs : List Char) : Bool :=
  match matchYMD ' ' cs with
  | some r =>
      let p1 := digitRun r
      p1.1 == 2 &&
        match p1.2 with
        | ':' :: r2 =>
            let p2 := digitRun r2
            p2.1 == 2 &&
              match p2.2 with
              | ':' :: r3 =>
                  let p3 := digitRun r3
                  p3.1 == 2 && p3.2.isEmpty
              | _ => false
        | _ => false
  | none => false

/-- Optional offset `(([+-]\d{1,2}(:\d{1,2})?)|Z|UTC)?$` of the fourth
timestamp pattern. -/
def matchOffset4 : List Char → Bool
  | [] => true
  | ['Z'] => true
  | ['U', 'T', 'C'] => true
  | c :: cs =>
      (c == '+' || c == '-') &&
        (let p1 := digitRun cs
         (1 ≤ p1.1 && p1.1 ≤ 2) &&
           match p1.2 with
           | [] => true
           | ':' :: r2 =>
               let p2 := digitRun r2
               (1 ≤ p2.1 && p2.1 ≤ 2) && p2.2.isEmpty
           | _ => false)

/-- Fourth timestamp pattern
`^\d{4}-\d{1,2}-\d{1,2}[T ]\d{1,2}:\d{1,2}:\d{1,2}(\.\d{1,6})? *(([+-]\d{1,2}(:\d{1,2})?)|Z|UTC)?$`. -/
def matchTs4 (cs : List Char) : Bool :=
  let p1 := digitRun cs
  p1.1 == 4 &&
    match p1.2 with
    | '-' :: r2 =>
        let p2 := digitRun r2
        (1 ≤ p2.1 && p2.1 ≤ 2) &&
          match p2.2 with
          | '-' :: r3 =>
              let p3 := digitRun r3
              (1 ≤ p3.1 && p3.1 ≤ 2) &&
                match p3.2 with
                | c :: r4 =>
                    (c == 'T' || c == ' ') &&
                      (let q1 := digitRun r4
                       (1 ≤ q1.1 && q1.1 ≤ 2) &&
                         match q1.2 with
                         | ':' :: s2 =>
                             let q2 := digitRun s2
                             (1 ≤ q2.1 && q2.1 ≤ 2) &&
                               match q2.2 with
                               | ':' :: s3 =>
                                   let q3 := digitRun s3
                                   (1 ≤ q3.1 && q3.1 ≤ 2) &&
                                     match q3.2 with
                                     | '.' :: s4 =>
                                         let q4 := digitRun s4
                                         (1 ≤ q4.1 && q4.1 ≤ 6) &&
                                           matchOffset4 (spaceRun q4.2)
                                     | rest => matchOffset4 (spaceRun rest)
                               | _ => false
                         | _ => false)
                | [] => false
          | _ => false
    | _ => false

/-- The four `timestampMatchers`, tried in registration order. -/
def matchTimestampAny (s : String) : Bool :=
  matchTs1 s.toList || matchTs2 s.toList || matchTs3 s.toList || matchTs4 s.toList

/-- `dateMatcher.MatchString`. -/
def matchDate (s : String) : Bool := matchDateL s.toList

/-- `timeMatcher.MatchString`. -/
def matchTime (s : String) : Bool := matchTimeL s.toList

/-- `boolMatcher` membership: the literal strings `true` and `false`. -/
def matchBool (s : String) : Bool := s == "true" || s == "false"

/-- `integerMatcher`: `^[-+]?\d+$`. -/
def matchInteger (s : String) : Bool :=
  let cs :=
    match s.toList with
    | '-' :: r => r
    | '+' :: r => r
    | r => r
  let p := digitRun cs
  p.1 ≥ 1 && p.2.isEmpty

/-- Optional exponent `([eE][-+]?\d+)?$` of the float pattern. -/
def matchExpEnd : List Char → Bool
  | [] => true
  | c :: cs =>
      (c == 'e' || c == 'E') &&
        (let cs' :=
           match cs with
           | '-' :: r => r
           | '+' :: r => r
           | r => r
         let p := digitRun cs'
         p.1 ≥ 1 && p.2.isEmpty)

/-- `floatMatcher`: `^[-+]?(?:\d+\.?\d*|\.\d+)(?:[eE][-+]?\d+)?$`. -/
def matchFloat (s : String) : Bool :=
  let cs :=
    match s.toList with
    | '-' :: r => r
    | '+' :: r => r
    | r => r
  match cs with
  | '.' :: r =>
      let p := digitRun r
      p.1 ≥ 1 && matchExpEnd p.2
  | _ =>
      let p := digitRun cs
      p.1 ≥ 1 &&
        (match p.2 with
         | '.' :: r2 =>
             let q := digitRun r2
             matchExpEnd q.2
         | rest => matchExpEnd rest)

/- ------------------------------------------------------------------ -/
/- Leaf classifier: `goType2Arrow` from `src/types.go`.                -/
/- ------------------------------------------------------------------ -/

/-- Engine options relevant to classification (`Bodkin.inferTimeUnits`,
`Bodkin.quotedValuesAreStrings`). -/
structure ClassOpts where
  inferTimeUnits : Bool
  quotedValuesAreStrings : Bool
  deriving Repr

/-- Digit list to the natural number it denotes in base 10. -/
def digitsToNat (cs : List Char) : Nat :=
  cs.foldl (fun a c => a * 10 + (c.toNat - '0'.toNat)) 0

/-- `json.Number.Int64()` success: `strconv.ParseInt(s, 10, 64)` accepts an
optional sign followed by a non-empty digit run whose value fits in a signed
64-bit integer. -/
def jsonNumberIsInt64 (s : String) : Bool :=
  match s.toList with
  | '+' :: cs => (!cs.isEmpty) && cs.all Char.isDigit && digitsToNat cs ≤ 9223372036854775807
  | '-' :: cs => (!cs.isEmpty) && cs.all Char.isDigit && digitsToNat cs ≤ 9223372036854775808
  | cs => (!cs.isEmpty) && cs.all Char.isDigit && digitsToNat cs ≤ 9223372036854775807

/-- A decoded dynamic value (`any` in a decoded `map[string]any`): the Go
scalar types the classifier switches on, plus lists and string-keyed maps.
Numeric and boolean payloads do not influence typing and are omitted;
`vnumber` is a `json.Number` (its text decides int64 vs float64), `vtime` a
`time.Time`. -/
inductive Value where
  | vnull
  | vbool
  | vint | vint8 | vint16 | vint32 | vint64
  | vuint | vuint8 | vuint16 | vuint32 | vuint64
  | vfloat32 | vfloat64
  | vnumber (s : String)
  | vtime
  | vstr (s : String)
  | vbytes
  | vlist (xs : List Value)
  | vmap (entries : List (String × Value))
  deriving Repr

/-- The string case of `goType2Arrow` (`src/types.go`), exactly in source
order: with `inferTimeUnits`, the four timestamp matchers, then the date
matcher, then the time matcher; falling through, unless
`quotedValuesAreStrings`, the bool, integer and float matchers; else
`String`. -/
def goStringType (o : ClassOpts) (t : String) : DataType :=
  if o.inferTimeUnits then
    if matchTimestampAny t then .timestampUs
    else if matchDate t then .date32
    else if matchTime t then .time64ns
    else if !o.quotedValuesAreStrings then
      if matchBool t then .boolean
      else if matchInteger t then .int64
      else if matchFloat t then .float64
      else .utf8
    else .utf8
  else if !o.quotedValuesAreStrings then
    if matchBool t then .boolean
    else if matchInteger t then .int64
    else if matchFloat t then .float64
    else .utf8
  else .utf8

/-- `goType2Arrow` (`src/types.go`).  A `[]any` recurses on its first
element (only reached from `sliceElemType` on a non-empty slice); `nil`
yields `Binary` (recording a diagnostic in Go); a `map` value has no case in
the Go switch and yields the `nil` data type. -/
def goType2Arrow (o : ClassOpts) : Value → DataType
  | .vlist (x :: _) => goType2Arrow o x
  | .vlist [] => .undef
  | .vnumber s => if jsonNumberIsInt64 s then .int64 else .float64
  | .vtime => .timestampUs
  | .vint => .int64
  | .vint8 => .int8
  | .vint16 => .int16
  | .vint32 => .int32
  | .vint64 => .int64
  | .vuint => .uint64
  | .vuint8 => .uint8
  | .vuint16 => .uint16
  | .vuint32 => .uint32
  | .vuint64 => .uint64
  | .vfloat32 => .float32
  | .vfloat64 => .float64
  | .vbool => .boolean
  | .vstr s => goStringType o s
  | .vbytes => .binary
  | .vmap _ => .undef
  | .vnull => .binary

/-- A scalar value: one handled by the `default`/scalar branches of
`mapToArrow`'s switch, i.e. neither a map, nor a list, nor `nil`. -/
def Value.isScalar : Value → Bool
  | .vnull => false
  | .vlist _ => false
  | .vmap _ => false
  | _ => true

/- ------------------------------------------------------------------ -/
/- The schema tree (`fieldPos`) and the walker (`mapToArrow`,
   `sliceElemType`).                                                     -/
/- ------------------------------------------------------------------ -/

/-- `fieldPos.dotPath`: `$` followed by the path segments joined by `.`. -/
def dotPathOf (path : List String) : String :=
  "$" ++ String.intercalate "." path

/-- The reason a path sits in the pending (`untypedFields`) store, the
spec's `Pending` kinds.  `Err` renders `unknownLeaf` as
`ErrUndefinedFieldType`, `emptyList` as `ErrUndefinedArrayElementType` and
`emptyStruct` as the struct-wrapped `ErrUndefinedFieldType`. -/
inductive PendReason where
  | unknownLeaf
  | emptyList
  | emptyStruct
  deriving DecidableEq, Repr

/-- A node of a per-record tree built by `mapToArrow`: the `fieldPos` name,
its `namePath()` (root-relative, including the synthetic `<name>.elem`
segments), its stamped `arrow.Field`, and the assigned children (which
coincide with `childmap` since sibling names are unique). -/
inductive RecNode where
  | mk (name : String) (path : List String) (field : FieldV)
       (children : List RecNode)
  deriving Repr

@[simp]
def RecNode.name : RecNode → String
  | .mk nm _ _ _ => nm

@[simp]
def RecNode.path : RecNode → List String
  | .mk _ p _ _ => p

@[simp]
def RecNode.field : RecNode → FieldV
  | .mk _ _ f _ => f

@[simp]
def RecNode.children : RecNode → List RecNode
  | .mk _ _ _ cs => cs

/-- The `(Name, Type)` pairs collected from a list of children's fields (the
`fields` accumulation loops of `mapToArrow` and `sliceElemType`). -/
def recFieldsOf (cs : List RecNode) : List (String × DataType) :=
  cs.map fun c => (c.field.name, c.field.ty)

/-- Output of a walk: assigned nodes, pending-store insertions and
known-store insertions (the latter two `Modelled from the spec:` the store
population is absent from `src/`; §3 known_paths holds every node with a
concrete type, §4.2 records a null leaf as `Pending(UnknownLeaf)`, an empty
list as `Pending(EmptyList)` and a childless object as
`Pending(EmptyStruct)`, keyed by dotted path). -/
structure WalkOut where
  nodes : List RecNode
  pend : List (String × PendReason)
  known : List String
  deriving Repr

/-- Output of `sliceElemType`: the element data type, the assigned element
child (if any), and the store insertions. -/
structure ElemOut where
  et : DataType
  children : List RecNode
  pend : List (String × PendReason)
  known : List String
  deriving Repr

mutual
/-- The entry loop of `mapToArrow` (`src/schema.go`): each key is visited in
(association-list) order; nested objects recurse and are skipped when they
have no visible children; empty lists and `nil` leaves are skipped; other
values are classified by `goType2Arrow`. -/
def walkEntries (o : ClassOpts) (pfx : List String) :
    List (String × Value) → WalkOut
  | [] => ⟨[], [], []⟩
  | (k, v) :: rest =>
      let r1 := walkEntry o pfx k v
      let r2 := walkEntries o pfx rest
      ⟨r1.nodes ++ r2.nodes, r1.pend ++ r2.pend, r1.known ++ r2.known⟩

/-- One entry of `mapToArrow`'s switch. -/
def walkEntry (o : ClassOpts) (pfx : List String) (k : String) (v : Value) :
    WalkOut :=
  let cpath := pfx ++ [k]
  match v with
  | .vmap t =>
      let r := walkEntries o cpath t
      if r.nodes.length != 0 then
        ⟨[.mk k cpath ⟨k, .strukt (recFieldsOf r.nodes)⟩ r.nodes],
         r.pend, r.known ++ [dotPathOf cpath]⟩
      else
        ⟨[], r.pend ++ [(dotPathOf cpath, .emptyStruct)], r.known⟩
  | .vlist [] =>
      ⟨[], [(dotPathOf cpath, .emptyList)], []⟩
  | .vlist (x :: xs) =>
      let r := sliceElem o cpath k x xs
      ⟨[.mk k cpath ⟨k, .list r.et⟩ r.children],
       r.pend, r.known ++ [dotPathOf cpath]⟩
  | .vnull =>
      ⟨[], [(dotPathOf cpath, .unknownLeaf)], []⟩
  | _ =>
      ⟨[.mk k cpath ⟨k, goType2Arrow o v⟩ []], [], [dotPathOf cpath]⟩

/-- `sliceElemType` (`src/schema.go`), called with the list node (name `k`,
path `listPath`) and the non-empty slice `x :: xs`; only the first element
is inspected.  A struct element becomes a synthetic `<k>.elem` child stamped
by `mapToArrow`; a nested non-empty list becomes a `<k>.elem` child that is
assigned but never stamped (its field stays the Go zero `arrow.Field`); a
nested empty list is a diagnostic; a scalar element is classified via
`goType2Arrow` on the slice (which recurses on its first element). -/
def sliceElem (o : ClassOpts) (listPath : List String) (k : String)
    (x : Value) (xs : List Value) : ElemOut :=
  match x with
  | .vmap ft =>
      let elemName := k ++ ".elem"
      let epath := listPath ++ [elemName]
      let r := walkEntries o epath ft
      ⟨.strukt (recFieldsOf r.nodes),
       [.mk elemName epath ⟨elemName, .strukt (recFieldsOf r.nodes)⟩ r.nodes],
       r.pend, r.known ++ [dotPathOf epath]⟩
  | .vlist [] =>
      ⟨.undef, [], [(dotPathOf listPath, .emptyList)], []⟩
  | .vlist (y :: ys) =>
      let elemName := k ++ ".elem"
      let epath := listPath ++ [elemName]
      let r := sliceElem o epath elemName y ys
      ⟨.list r.et, [.mk elemName epath ⟨"", .undef⟩ r.children], r.pend, r.known⟩
  | _ =>
      ⟨goType2Arrow o (.vlist (x :: xs)), [], [], []⟩
end

/-- `mapToArrow` on a whole record: walks the entries under the synthetic
root and stamps the root's struct field. -/
def walkRecord (o : ClassOpts) (m : List (String × Value)) :
    RecNode × List (String × PendReason) × List String :=
  let r := walkEntries o [] m
  (.mk "" [] ⟨"", .strukt (recFieldsOf r.nodes)⟩ r.nodes, r.pend, r.known)

/-- A node of the cumulative tree (`fieldPos` owned by `Bodkin.old`):
name, stored `namePath()`, stamped field, ordered children (`children` and
`childmap` agree; lookup takes the first child with the given name). -/
inductive Node where
  | mk (name : String) (path : List String) (field : FieldV)
       (children : List Node)
  deriving Repr

@[simp]
def Node.name : Node → String
  | .mk nm _ _ _ => nm

@[simp]
def Node.path : Node → List String
  | .mk _ p _ _ => p

@[simp]
def Node.field : Node → FieldV
  | .mk _ _ f _ => f

@[simp]
def Node.children : Node → List Node
  | .mk _ _ _ cs => cs

/-- Sibling lookup on a duplicate-free children list.  Go keeps `children`
(a slice) and `childmap` (one entry per name); on lists without repeated
names — which every tree below is built from until the duplicate-creating
call the C8 analysis exhibits — the resolution is unique and equals the
first match.  `lastNamed` below renders the full `childmap` overwrite
semantics of `assignChild`, and `firstNamed_eq_lastNamed` proves the two
agree on duplicate-free lists. -/
def firstNamed (k : String) : List Node → Option Node
  | [] => none
  | c :: cs => if c.name == k then some c else firstNamed k cs

/-- `childmap` lookup on a duplicate-free children list (see `firstNamed`;
`Node.lookupCm` is the resolution with `assignChild`'s overwrite). -/
def Node.lookup (n : Node) (k : String) : Option Node :=
  firstNamed k n.children

/-- `fieldPos.getPath` (`src/schema.go`): an empty query is an error
(`none`); a single key looks the child up; otherwise recurse into it. -/
def getPath : Node → List String → Option Node
  | _, [] => none
  | n, [k] => n.lookup k
  | n, k :: ks =>
      match n.lookup k with
      | none => none
      | some c => getPath c ks

mutual
/-- The grafted copy of a record subtree (`graft` copies `n.field` and the
`n.children` pointers, so descendants keep their record-tree paths). -/
def recToNode : RecNode → Node
  | .mk nm p f cs => .mk nm p f (recsToNodes cs)

def recsToNodes : List RecNode → List Node
  | [] => []
  | c :: cs => recToNode c :: recsToNodes cs
end

/- ------------------------------------------------------------------ -/
/- Change log, engine state, graft, upgradeType and merge.             -/
/- ------------------------------------------------------------------ -/

/-- A change-log entry (`Bodkin.changes` accumulates
`added <dotpath> : <type>` and `changed <dotpath> : from <old> to <new>`
wrapped errors). -/
inductive Change where
  | added (dotpath : String) (ty : DataType)
  | changed (dotpath : String) (fromTy : DataType) (toTy : DataType)
  deriving Repr

/-- Error kinds surfaced by the modelled entry points. -/
inductive GoErr where
  | undefinedInput
  | invalidInput
  | maxCountExceeded
  | pathNotFound
  deriving DecidableEq, Repr

/-- `math.MaxInt64`. -/
def int64Max : Int := 9223372036854775807

/-- The engine state (`Bodkin` in `src/bodkin.go`).  `known` and `pending`
are the key sequences of the two insertion-ordered path stores
(`knownFields`, `untypedFields`); `latest` is `u.new`. -/
structure Bod where
  original : Node
  old : Node
  latest : Option RecNode
  known : List String
  pending : List (String × PendReason)
  changes : List Change
  count : Int
  maxCount : Int
  inferTimeUnits : Bool
  quotedValuesAreStrings : Bool
  typeConversion : Bool
  err : Option GoErr
  deriving Repr

/-- The classifier options of a state. -/
def Bod.classOpts (u : Bod) : ClassOpts :=
  ⟨u.inferTimeUnits, u.quotedValuesAreStrings⟩

/-- The part of the state `merge` reads and writes: the cumulative tree,
the change log, the known store (grafts insert into it) and the
`typeConversion` flag. -/
structure MSt where
  old : Node
  changes : List Change
  known : List String
  tc : Bool
  deriving Repr

/-- The merge sub-state of a full state. -/
def Bod.mst (u : Bod) : MSt :=
  ⟨u.old, u.changes, u.known, u.typeConversion⟩

/-- Ordered-map `Set` on the known store: appends an unseen key, keeps the
position of a present one. -/
def knownInsert (ks : List String) (k : String) : List String :=
  if ks.contains k then ks else ks ++ [k]

def knownInsertAll (ks : List String) (new : List String) : List String :=
  new.foldl knownInsert ks

/-- Ordered-map `Set` on the pending store. -/
def pendInsert (ps : List (String × PendReason)) (e : String × PendReason) :
    List (String × PendReason) :=
  if ps.any (fun q => q.1 == e.1) then
    ps.map fun q => if q.1 == e.1 then (q.1, e.2) else q
  else ps ++ [e]

def pendInsertAll (ps : List (String × PendReason))
    (new : List (String × PendReason)) : List (String × PendReason) :=
  new.foldl pendInsert ps

/-- Replace the first child with the given name (the pointer update of the
node `childmap`/`children` share). -/
def replaceFirst : List Node → String → Node → List Node
  | [], _, _ => []
  | c :: cs, k, c' =>
      if c.name == k then c' :: cs else c :: replaceFirst cs k c'

/-- The body of `graft` at the receiving node `f` (`src/schema.go:192`):
append the graft child; when `f`'s field is a struct, re-stamp `f.field`
with the extended field list — under the NAME OF THE GRAFTED CHILD
(`arrow.Field{Name: graft.name, …}` in the source).  Returns the updated
node and whether the struct branch was taken. -/
def graftInto (f : Node) (g : Node) : Node × Bool :=
  match f.field.ty with
  | .strukt fs =>
      (.mk f.name f.path ⟨g.name, .strukt (fs ++ [(g.field.name, g.field.ty)])⟩
         (f.children ++ [g]), true)
  | _ => (.mk f.name f.path f.field (f.children ++ [g]), false)

/-- Apply `graft` at the node at position `pos` (root when `pos = []`),
including the grandparent re-stamp `f.parent.field = ListOf(…)` when the
struct branch was taken and the receiving node's parent is a list. -/
def graftWalk (cur : Node) : List String → Node → Node
  | [], g => (graftInto cur g).1
  | [k], g =>
      match cur.lookup k with
      | none => cur
      | some f =>
          let r := graftInto f g
          let cur' := Node.mk cur.name cur.path cur.field
            (replaceFirst cur.children k r.1)
          if r.2 && (cur.field.ty.id == TypeID.LIST) then
            Node.mk cur'.name cur'.path ⟨cur'.name, .list r.1.field.ty⟩
              cur'.children
          else cur'
  | k :: k' :: ks, g =>
      match cur.lookup k with
      | none => cur
      | some c =>
          Node.mk cur.name cur.path cur.field
            (replaceFirst cur.children k (graftWalk c (k' :: ks) g))

mutual
/-- Modelled from the spec: §4.3 step 3 inserts every node of a grafted
subtree into `known_paths` (nodes without a concrete type are skipped), at
its dotted path below the graft position. -/
def graftKnownIns (base : List String) : RecNode → List String
  | .mk nm _ f cs =>
      let self := if f.ty.id == TypeID.undef then [] else [dotPathOf (base ++ [nm])]
      self ++ graftKnownInsList (base ++ [nm]) cs

def graftKnownInsList (base : List String) : List RecNode → List String
  | [] => []
  | c :: cs => graftKnownIns base c ++ graftKnownInsList base cs
end

/-- One `graft` call observed at the state level: `target` is the node the
graft attaches to (found at position `pos`), `n` the record node being
grafted.  Appends the `added` change entry built from the target's stored
path, and performs the spec-modelled known-store insertions. -/
def graftApply (u : MSt) (pos : List String) (target : Node) (n : RecNode) :
    MSt :=
  let g : Node := .mk n.name (target.path ++ [n.name]) n.field
    (recsToNodes n.children)
  { u with
      old := graftWalk u.old pos g
      changes := u.changes ++ [.added (dotPathOf (target.path ++ [n.name])) n.field.ty]
      known := knownInsertAll u.known (graftKnownIns pos n) }

/-- The target type `merge` passes to `upgradeType` for a conflicting pair
of type ids (old id on the left), mirroring the nested switch of
`src/bodkin.go:354-444`; `none` when no `upgradeType` call is reached
(including the explicit `NULL` and `STRING` breaks and the ids the switch
has no case for). -/
def upgradeTarget : TypeID → TypeID → Option TypeID
  | .NULL, _ => none
  | .STRING, _ => none
  | .INT8, nid | .INT16, nid | .INT32, nid | .INT64, nid
  | .UINT8, nid | .UINT16, nid | .UINT32, nid | .UINT64, nid =>
      match nid with
      | .FLOAT16 | .FLOAT32 | .FLOAT64 => some .FLOAT64
      | _ => some .STRING
  | .FLOAT16, nid =>
      match nid with
      | .FLOAT32 => some .FLOAT32
      | .FLOAT64 => some .FLOAT64
      | _ => some .STRING
  | .FLOAT32, nid =>
      match nid with
      | .FLOAT64 => some .FLOAT64
      | _ => some .STRING
  | .FLOAT64, nid =>
      match nid with
      | .INT8 | .INT16 | .INT32 | .INT64
      | .UINT8 | .UINT16 | .UINT32 | .UINT64
      | .FLOAT16 | .FLOAT32 => none
      | _ => some .STRING
  | .TIMESTAMP, nid =>
      match nid with
      | .TIME64 => some .STRING
      | _ => none
  | .DATE32, nid =>
      match nid with
      | .TIMESTAMP => some .TIMESTAMP
      | _ => some .STRING
  | .TIME64, nid =>
      match nid with
      | .DATE32 | .TIMESTAMP => some .STRING
      | _ => none
  | _, _ => none

/-- The field assignment of `upgradeType` (`src/schema.go:217-224`): only
the targets `FLOAT64`, `STRING` and `TIMESTAMP` re-stamp the field (the
timestamp instance being `Timestamp_ms`, UTC); any other target leaves it
unchanged. -/
def upgradeNewField (o : FieldV) : TypeID → FieldV
  | .FLOAT64 => ⟨o.name, .float64⟩
  | .STRING => ⟨o.name, .utf8⟩
  | .TIMESTAMP => ⟨o.name, .timestampMsUTC⟩
  | _ => o

/-- Set the field of the node at position `p` to `nf` and re-stamp its
parent's composite field (`upgradeType`, `src/schema.go:225-234`): a list
parent becomes `ListOf` of the NEW record node's type `nty`; a struct
parent re-collects its children's fields. -/
def upgradeWalk (cur : Node) (p : List String) (nf : FieldV)
    (nty : DataType) : Node :=
  match p with
  | [] => cur
  | [k] =>
      match cur.lookup k with
      | none => cur
      | some o =>
          let o' := Node.mk o.name o.path nf o.children
          let cur1 := Node.mk cur.name cur.path cur.field
            (replaceFirst cur.children k o')
          match cur.field.ty.id with
          | .LIST => Node.mk cur1.name cur1.path ⟨cur1.name, .list nty⟩ cur1.children
          | .STRUCT =>
              Node.mk cur1.name cur1.path
                ⟨cur1.name, .strukt (recFieldsOfN cur1.children)⟩ cur1.children
          | _ => cur1
  | k :: k' :: ks =>
      match cur.lookup k with
      | none => cur
      | some c =>
          Node.mk cur.name cur.path cur.field
            (replaceFirst cur.children k (upgradeWalk c (k' :: ks) nf nty))
where
  recFieldsOfN (cs : List Node) : List (String × DataType) :=
    cs.map fun c => (c.field.name, c.field.ty)

/-- One `upgradeType` call: the gate rejects any NEW node whose type id is
not in `UpgradableTypes` (returning the state unchanged, the
`ErrNotAnUpgradableType` diagnostic being joined into the node's unread
`err`); otherwise the field at `p` is re-stamped, the parent's composite
type re-stamped, and a `changed` entry appended (from the old type to the
field type after the switch). -/
def upgradeApply (u : MSt) (p : List String) (kin : Node) (n : RecNode)
    (t : TypeID) : MSt :=
  if UpgradableTypes.contains n.field.ty.id then
    let nf := upgradeNewField kin.field t
    { u with
        old := upgradeWalk u.old p nf n.field.ty
        changes := u.changes ++ [.changed (dotPathOf kin.path) kin.field.ty nf.ty] }
  else u

/-- The guard of the conversion block in `merge`:
`u.typeConversion && !kin.field.Equal(n.field) && kin.ID != n.ID`. -/
def mergeGuard (tc : Bool) (kf nf : FieldV) : Bool :=
  tc && !(FieldV.beq kf nf) && !(kf.ty.id == nf.ty.id)

mutual
/-- `merge` (`src/bodkin.go:335`): look the node up at
`mergeAt ++ n.path`; on a miss graft — at the ROOT whenever the record node
is a top-level child (`n.root == n.parent`), else at the node found at the
parent path (a miss there dereferences a nil pointer in Go and is
unreachable from the entry points; modelled as a no-op); on a hit run the
conversion switch and recurse into the record node's children. -/
def mergeNode (u : MSt) (mergeAt : List String) : RecNode → MSt
  | .mk nm p f cs =>
      let nPath := mergeAt ++ p
      match getPath u.old nPath with
      | none =>
          if p.length == 1 then
            graftApply u [] u.old (.mk nm p f cs)
          else
            let nParentPath := mergeAt ++ p.dropLast
            match getPath u.old nParentPath with
            | some b => graftApply u nParentPath b (.mk nm p f cs)
            | none => u
      | some kin =>
          let u' :=
            if mergeGuard u.tc kin.field f then
              match upgradeTarget kin.field.ty.id f.ty.id with
              | some t => upgradeApply u nPath kin (.mk nm p f cs) t
              | none => u
            else u
          mergeChildren u' mergeAt cs

def mergeChildren (u : MSt) (mergeAt : List String) : List RecNode → MSt
  | [] => u
  | c :: cs => mergeChildren (mergeNode u mergeAt c) mergeAt cs
end

/- ------------------------------------------------------------------ -/
/- Entry points (`src/bodkin.go`).                                     -/
/- ------------------------------------------------------------------ -/

/-- `reader.InputMap` on an already-decoded value: a map passes through,
`nil` is `ErrUndefinedInput`, any other value fails to decode to a
`map[string]any` (`ErrInvalidInput`).  The JSON decoding of `string` and
`[]byte` inputs, and the mapstructure decoding of Go structs (both of which
produce such a decoded map), are out-of-scope collaborators; inputs here
are the decoded trees themselves. -/
def inputMap : Value → Except GoErr (List (String × Value))
  | .vmap m => .ok m
  | .vnull => .error .undefinedInput
  | _ => .error .invalidInput

/-- The options recognised by `NewBodkin` that the core consults
(`WithInferTimeUnits`, `WithQuotedValuesAreStrings`, `WithTypeConversion`). -/
structure BOpts where
  inferTimeUnits : Bool
  quotedValuesAreStrings : Bool
  typeConversion : Bool
  deriving Repr

/-- `newBodkin` (`src/bodkin.go:86`): applies the options, creates the two
path stores, evaluates the input twice (the frozen `original` and the
mutable `old`), and finally sets `maxCount` to `math.MaxInt64`
(unconditionally — overwriting any `WithMaxCount` option).  The walk's
store insertions are `Modelled from the spec:` (§3, §4.2); both walks
insert the same keys, the second pass finding them all present. -/
def newBodkin (op : BOpts) (m : List (String × Value)) : Bod :=
  let co : ClassOpts := ⟨op.inferTimeUnits, op.quotedValuesAreStrings⟩
  let w1 := walkRecord co m
  let w2 := walkRecord co m
  { original := recToNode w1.1
    old := recToNode w2.1
    latest := none
    known := knownInsertAll (knownInsertAll [] w1.2.2) w2.2.2
    pending := pendInsertAll (pendInsertAll [] w1.2.1) w2.2.1
    changes := []
    count := 0
    maxCount := int64Max
    inferTimeUnits := op.inferTimeUnits
    quotedValuesAreStrings := op.quotedValuesAreStrings
    typeConversion := op.typeConversion
    err := none }

/-- `Unify` (`src/bodkin.go:220`): fail when the unification count exceeds
`maxCount`; decode the input (an error sets `u.err` and returns
`ErrInvalidInput` without touching anything else); build the per-record
tree into `u.new`, merge each top-level child into the cumulative tree, and
increment the count. -/
def unify (u : Bod) (a : Value) : Bod × Option GoErr :=
  if u.count > u.maxCount then (u, some .maxCountExceeded)
  else
    match inputMap a with
    | .error _ => ({ u with err := some .invalidInput }, some .invalidInput)
    | .ok m =>
        let w := walkRecord u.classOpts m
        let u1 := { u with
          latest := some w.1
          pending := pendInsertAll u.pending w.2.1
          known := knownInsertAll u.known w.2.2 }
        let ms := mergeChildren u1.mst [] w.1.children
        ({ u1 with
            old := ms.old
            changes := ms.changes
            known := ms.known
            count := u1.count + 1 }, none)

/-- `strings.TrimPrefix(mergeAt, "$")`. -/
def trimDollar (s : String) : String :=
  match s.toList with
  | '$' :: r => ⟨r⟩
  | _ => s

/-- `strings.Split(s, ".")`: splits on every dot, keeping empty segments
(the empty string yields one empty segment). -/
def splitDotAux : List Char → List Char → List String
  | [], acc => [⟨acc.reverse⟩]
  | c :: cs, acc =>
      if c == '.' then ⟨acc.reverse⟩ :: splitDotAux cs []
      else splitDotAux cs (c :: acc)

def splitOnDots (s : String) : List String :=
  splitDotAux s.toList []

/-- `UnifyAtPath` (`src/bodkin.go:244`): fail on the count cap; compute the
merge path by splitting the `$`-trimmed argument on `.` (empty for the two
root spellings); fail with `ErrPathNotFound` when `mergeAt` is not a key of
the `knownFields` store; then proceed as `Unify`, passing the merge path to
`merge`. -/
def unifyAtPath (u : Bod) (a : Value) (mergeAt : String) : Bod × Option GoErr :=
  if u.count > u.maxCount then (u, some .maxCountExceeded)
  else
    let mergePath : List String :=
      if mergeAt.length == 0 || mergeAt == "$" then []
      else splitOnDots (trimDollar mergeAt)
    if !(u.known.contains mergeAt) then (u, some .pathNotFound)
    else
      match inputMap a with
      | .error _ => ({ u with err := some .invalidInput }, some .invalidInput)
      | .ok m =>
          let w := walkRecord u.classOpts m
          let u1 := { u with
            latest := some w.1
            pending := pendInsertAll u.pending w.2.1
            known := knownInsertAll u.known w.2.2 }
          let ms := mergeChildren u1.mst mergePath w.1.children
          ({ u1 with
              old := ms.old
              changes := ms.changes
              known := ms.known
              count := u1.count + 1 }, none)

/-- `Schema()`: the fields of the cumulative root's children. -/
def schemaOf (u : Bod) : List FieldV :=
  u.old.children.map Node.field

/-- `OriginSchema()`: the fields of the frozen original root's children. -/
def originSchemaOf (u : Bod) : List FieldV :=
  u.original.children.map Node.field

/-- `CountPending()`. -/
def countPending (u : Bod) : Nat := u.pending.length

/-- `strings.Count(p, ".")`, a path's depth in `sortMapKeysDesc`. -/
def keyDepth (p : String) : Nat := p.toList.count '.'

/-- `sortMapKeysDesc` (`src/bodkin.go:452`): keys newest-first, then
bucketed by dot-count descending (stable within a bucket). -/
def sortKeysDesc (keys : List String) : List String :=
  let rev := keys.reverse
  let maxD := rev.foldl (fun a p => max a (keyDepth p)) 0
  ((List.range (maxD + 1)).reverse).flatMap
    fun d => rev.filter fun p => keyDepth p == d

/-- `Err()` (`src/bodkin.go:119`): the unevaluated paths, deepest first,
each with its evaluation-failure reason (rendered from the stored node's
`arrowType` in the source: `LIST` as the empty-array error, `STRUCT` as the
struct error, anything else as the undefined-field error — i.e. exactly the
pending reason). -/
def errList (u : Bod) : List (String × PendReason) :=
  (sortKeysDesc (u.pending.map Prod.fst)).filterMap
    fun p => (u.pending.find? fun q => q.1 == p).map fun q => (p, q.2)

/- ------------------------------------------------------------------ -/
/- Concrete scenarios.                                                 -/
/- ------------------------------------------------------------------ -/

/-- The type found at a position of a cumulative tree. -/
def fieldTyAt (S : Node) (p : List String) : Option DataType :=
  (getPath S p).map fun k => k.field.ty

/-- The field name found at a position of a cumulative tree. -/
def fieldNameAt (S : Node) (p : List String) : Option String :=
  (getPath S p).map fun k => k.field.name

/-- Scenario S5 state: `NewBodkin` on the decoded record
`(json) a maps-to (object) b maps-to 1`. -/
def s5State : Bod :=
  newBodkin ⟨false, false, false⟩ [("a", .vmap [("b", .vnumber "1")])]

/-- Scenario S5 call: `UnifyAtPath` of the decoded `(json) c maps-to "y"`
at mount path `$a`. -/
def s5Res : Bod × Option GoErr :=
  unifyAtPath s5State (.vmap [("c", .vstr "y")]) "$a"

/-- C1.  When the mount path `$a` exists in the known store, `UnifyAtPath`
succeeds — but `merge` grafts every top-level field of the record at the
ROOT of the cumulative tree (the `n.root == n.parent` branch ignores the
merge path), so scenario S5 produces a top-level `c: string` with change
entry `added $c`, leaves `a` as `struct<b: int64>`, and creates no `$a.c`
node; and the empty-string root spelling is rejected with `PathNotFound`
(it can never be a key of the known store, whose keys are `$`-prefixed
dotted paths), although the root exists. -/
theorem C1_unifyAtPath_grafts_at_root :
    s5Res.2 = none ∧
    schemaOf s5Res.1 =
      [⟨"a", .strukt [("b", .int64)]⟩, ⟨"c", .utf8⟩] ∧
    s5Res.1.changes = [.added "$c" .utf8] ∧
    getPath s5Res.1.old ["a", "c"] = none ∧
    fieldTyAt s5Res.1.old ["a"] = some (.strukt [("b", .int64)]) ∧
    (unifyAtPath s5State (.vmap [("c", .vstr "y")]) "").2 =
      some .pathNotFound :=
  ⟨rfl, rfl, rfl, rfl, rfl, rfl⟩

/-- Scenario S3 state: `NewBodkin` with `WithTypeConversion` on the decoded
record `a maps-to (json number) 1`. -/
def s3State : Bod :=
  newBodkin ⟨false, false, true⟩ [("a", .vnumber "1")]

/-- Scenario S3 call: `Unify` of `a maps-to (json number) 1.5`. -/
def s3Res : Bod × Option GoErr :=
  unify s3State (.vmap [("a", .vnumber "1.5")])

/-- C2.  The two observations classify as Int64 and Float64 as the claim
says, but the promotion never happens: `merge` reaches
`upgradeType(n, FLOAT64)` and its gate rejects the call because `FLOAT64`
is not in `UpgradableTypes`, so the schema keeps `a: int64` and the change
log receives no entry at all — contradicting `merge`'s own documentation
(`INTEGER can upgrade to FLOAT`) and scenario S3. -/
theorem C2_int_float_promotion_blocked :
    goType2Arrow ⟨false, false⟩ (.vnumber "1") = .int64 ∧
    goType2Arrow ⟨false, false⟩ (.vnumber "1.5") = .float64 ∧
    s3Res.2 = none ∧
    schemaOf s3Res.1 = [⟨"a", .int64⟩] ∧
    s3Res.1.changes = [] :=
  ⟨rfl, rfl, rfl, rfl, rfl⟩

/-- The decoded record of scenario S1. -/
def s1Rec : List (String × Value) :=
  [("count", .vnumber "89"),
   ("next", .vstr "https://sub.domain.com/api/search/?models=thurblig&page=3"),
   ("previous", Value.vnull),
   ("results", .vlist [.vmap [("id", .vnumber "7594")]]),
   ("arrayscalar", .vlist []),
   ("datefield", .vstr "1979-01-01"),
   ("timefield", .vstr "01:02:03")]

/-- `NewBodkin` with `WithInferTimeUnits` and `WithTypeConversion` on S1. -/
def s1State : Bod := newBodkin ⟨true, false, true⟩ s1Rec

/-- Unifying the same S1 record again. -/
def s1Res : Bod × Option GoErr := unify s1State (.vmap s1Rec)

/-- C3.  A null leaf and an empty list are accepted: evaluating S1 and
unifying it succeeds, the schema holds the five typed fields, and the
pending listing (`Err`, deepest first) carries exactly `$previous` with the
unknown-leaf reason and `$arrayscalar` with the empty-list reason. -/
theorem C3_null_and_empty_list_are_pending :
    s1Res.2 = none ∧
    schemaOf s1State =
      [⟨"count", .int64⟩, ⟨"next", .utf8⟩,
       ⟨"results", .list (.strukt [("id", .int64)])⟩,
       ⟨"datefield", .date32⟩, ⟨"timefield", .time64ns⟩] ∧
    ("$previous", PendReason.unknownLeaf) ∈ errList s1Res.1 ∧
    ("$arrayscalar", PendReason.emptyList) ∈ errList s1Res.1 ∧
    countPending s1Res.1 = 2 := by
  have h : errList s1Res.1 =
      [("$arrayscalar", .emptyList), ("$previous", .unknownLeaf)] := rfl
  refine ⟨rfl, rfl, ?_, ?_, rfl⟩
  · rw [h]; exact List.mem_cons_of_mem _ (List.mem_cons_self _ _)
  · rw [h]; exact List.mem_cons_self _ _

/-- State for the graft frame claim: `a maps-to (object) b maps-to 1`. -/
def c10State : Bod :=
  newBodkin ⟨false, false, false⟩ [("a", .vmap [("b", .vnumber "1")])]

/-- Unify `a maps-to (object) c maps-to "y"`: the new field `c` is grafted
into the existing struct node `a`. -/
def c10Res : Bod × Option GoErr :=
  unify c10State (.vmap [("a", .vmap [("c", .vstr "y")])])

/-- C10.  Grafting `c` under the struct node `a` re-stamps `a`'s arrow
field under the NAME OF THE GRAFTED CHILD (`arrow.Field{Name: graft.name,
…}` in `graft`): afterwards the node still answers to tree name `a` but its
field is named `c`, and the exported schema's top-level field is `c` — the
receiving node does not keep its field name, while its struct type is
extended with the grafted field as the claim describes. -/
theorem C10_graft_renames_receiving_field :
    fieldNameAt c10Res.1.old ["a"] = some "c" ∧
    (getPath c10Res.1.old ["a"]).map Node.name = some "a" ∧
    fieldTyAt c10Res.1.old ["a"] =
      some (.strukt [("b", .int64), ("c", .utf8)]) ∧
    schemaOf c10Res.1 =
      [⟨"c", .strukt [("b", .int64), ("c", .utf8)]⟩] ∧
    ("c" : String) ≠ "a" :=
  ⟨rfl, rfl, rfl, rfl, by decide⟩

/-- State for the Date32 promotion claim: `datefield` inferred as date32. -/
def c4State : Bod :=
  newBodkin ⟨true, false, true⟩ [("datefield", .vstr "1979-01-01")]

/-- A later record observes a timestamp string at the same path. -/
def c4Res : Bod × Option GoErr :=
  unify c4State (.vmap [("datefield", .vstr "2024-10-24T19:03:09+00:00")])

/-- C4 counterexample.  The promotion lands on `Timestamp_ms` (millisecond
unit, UTC zone — `arrow.FixedWidthTypes.Timestamp_ms` in `upgradeType`),
not on the claimed `TimestampUs`. -/
theorem C4_counterexample_ms_not_us :
    fieldTyAt c4Res.1.old ["datefield"] = some .timestampMsUTC ∧
    fieldTyAt c4Res.1.old ["datefield"] ≠ some .timestampUs := by
  have h : fieldTyAt c4Res.1.old ["datefield"] = some .timestampMsUTC := rfl
  refine ⟨h, ?_⟩
  rw [h]
  intro hc
  injection hc with hc'
  exact DataType.noConfusion hc'

/-- State for the integer widening claim: `a` observed as a Go `int`
(classified Int64). -/
def c5State : Bod := newBodkin ⟨false, false, true⟩ [("a", Value.vint)]

/-- A later record observes `a` as a Go `int8` (a different integer
type). -/
def c5Res : Bod × Option GoErr := unify c5State (.vmap [("a", Value.vint8)])

/-- C5 counterexample.  Two conflicting integer observations do not widen
to Int64: the `default` of `merge`'s integer case upgrades to String, so
`int64` then `int8` leaves `a: string` (with one change entry), not
`int64`. -/
theorem C5_counterexample_int_to_string :
    fieldTyAt c5Res.1.old ["a"] = some .utf8 ∧
    fieldTyAt c5Res.1.old ["a"] ≠ some .int64 ∧
    c5Res.1.changes = [.changed "$a" .int64 .utf8] := by
  have h : fieldTyAt c5Res.1.old ["a"] = some .utf8 := rfl
  refine ⟨h, ?_, rfl⟩
  rw [h]
  intro hc
  injection hc with hc'
  exact DataType.noConfusion hc'

/- ------------------------------------------------------------------ -/
/- C6: the classifier applies its matchers in a fixed order.           -/
/- ------------------------------------------------------------------ -/

/-- The leaf-classifier order exactly as the claim states it: with
`infer_time_units`, the timestamp patterns first (TimestampUs), then the
date pattern (Date32), then the time pattern (Time64Ns); only when none
matched and `quoted_values_are_strings` is not set, the quoted-scalar
matchers in the order bool, integer (Int64), float (Float64); otherwise
String; the first matcher to match wins. -/
def classifyStringClaim (itu qvs : Bool) (t : String) : DataType :=
  if itu && matchTimestampAny t then .timestampUs
  else if itu && matchDate t then .date32
  else if itu && matchTime t then .time64ns
  else if !qvs && matchBool t then .boolean
  else if !qvs && matchInteger t then .int64
  else if !qvs && matchFloat t then .float64
  else .utf8

/-- C6.  The string branch of `goType2Arrow` classifies every string in
exactly the claimed matcher order. -/
theorem C6_classifier_matcher_order (o : ClassOpts) (t : String) :
    goStringType o t =
      classifyStringClaim o.inferTimeUnits o.quotedValuesAreStrings t := by
  rcases o with ⟨itu, qvs⟩
  simp only [goStringType, classifyStringClaim]
  cases itu <;> cases qvs <;> simp

/- Tie-break illustrations on concrete strings: `123` matches both the
integer and the float pattern and classifies as Int64; a quoted scalar
stays String under `quoted_values_are_strings` while a date is still
detected; a plain date does not reach the quoted matchers. -/
example : matchInteger "123" = true ∧ matchFloat "123" = true := by decide
example : goStringType ⟨true, false⟩ "123" = .int64 := rfl
example : goStringType ⟨true, true⟩ "123" = .utf8 := rfl
example : goStringType ⟨true, true⟩ "1979-01-01" = .date32 := rfl
example : goStringType ⟨false, false⟩ "1979-01-01" = .utf8 := rfl
example : goStringType ⟨true, false⟩ "1.5" = .float64 := rfl
example : goStringType ⟨true, false⟩ "true" = .boolean := rfl
example : goStringType ⟨true, false⟩ "01:02:03" = .time64ns := rfl
example : goStringType ⟨true, false⟩ "2024-10-24 19:03:09" = .timestampUs := rfl

/- ------------------------------------------------------------------ -/
/- C9: failing calls leave the state untouched.                        -/
/- ------------------------------------------------------------------ -/

/-- C9.  Whenever `Unify` or `UnifyAtPath` returns an error
(`MaxCountExceeded`, `InvalidInput`, or `PathNotFound`), the cumulative
tree, the change log and the unification count are exactly what they were
before the call: every error return in the source happens before the
per-record tree is merged and before the count is incremented. -/
theorem C9_errors_leave_state_unchanged (u : Bod) (a : Value) (mp : String) :
    ((unify u a).2.isSome →
      (unify u a).1.old = u.old ∧
      (unify u a).1.changes = u.changes ∧
      (unify u a).1.count = u.count) ∧
    ((unifyAtPath u a mp).2.isSome →
      (unifyAtPath u a mp).1.old = u.old ∧
      (unifyAtPath u a mp).1.changes = u.changes ∧
      (unifyAtPath u a mp).1.count = u.count) := by
  constructor
  · intro h
    by_cases hc : u.count > u.maxCount
    · simp [unify, hc]
    · cases hi : inputMap a with
      | error e => simp [unify, hc, hi]
      | ok m => simp [unify, hc, hi] at h
  · intro h
    by_cases hc : u.count > u.maxCount
    · simp [unifyAtPath, hc]
    · by_cases hk : mp ∈ u.known
      · cases hi : inputMap a with
        | error e => simp [unifyAtPath, hc, hk, hi]
        | ok m => simp [unifyAtPath, hc, hk, hi] at h
      · simp [unifyAtPath, hc, hk]

/-- A state that trips the count cap (such states require 2^63 accepted
records to reach, since `newBodkin` pins `maxCount` to `MaxInt64`, but the
guard is real code). -/
def c9CapState : Bod :=
  { s3State with count := 3, maxCount := 2 }

/-- Witness for C9: at the capped state the call errors and the theorem
yields the preservation facts; at `s3State` with a non-map input the call
errors with `InvalidInput` and preservation also holds. -/
theorem C9_errors_witness :
    ((unify c9CapState (.vmap [("x", Value.vint)])).1.old = c9CapState.old ∧
     (unify c9CapState (.vmap [("x", Value.vint)])).1.changes = c9CapState.changes ∧
     (unify c9CapState (.vmap [("x", Value.vint)])).1.count = c9CapState.count) ∧
    ((unifyAtPath s3State (.vmap [("c", .vstr "y")]) "$missing").1.old = s3State.old ∧
     (unifyAtPath s3State (.vmap [("c", .vstr "y")]) "$missing").1.changes = s3State.changes ∧
     (unifyAtPath s3State (.vmap [("c", .vstr "y")]) "$missing").1.count = s3State.count) :=
  ⟨(C9_errors_leave_state_unchanged c9CapState (.vmap [("x", Value.vint)]) "$x").1 (by rfl),
   (C9_errors_leave_state_unchanged s3State (.vmap [("c", .vstr "y")]) "$missing").2 (by rfl)⟩

/- ------------------------------------------------------------------ -/
/- Helper lemmas for single-field merges.                              -/
/- ------------------------------------------------------------------ -/

set_option maxHeartbeats 1600000 in
/-- A successful `beq` implies equal type ids. -/
theorem DataType.beq_id {a b : DataType} (h : DataType.beq a b = true) :
    a.id = b.id := by
  cases a <;> cases b <;> first | rfl | simp [DataType.beq] at h

/-- Conflicting type ids falsify `arrow.Field.Equal`. -/
theorem FieldV.beq_false_of_id_ne {a b : FieldV} (h : a.ty.id ≠ b.ty.id) :
    FieldV.beq a b = false := by
  cases hb : DataType.beq a.ty b.ty with
  | true => exact absurd (DataType.beq_id hb) h
  | false => simp [FieldV.beq, hb]

/-- A found child carries the looked-up name. -/
theorem firstNamed_name {k : String} {cs : List Node} {kin : Node}
    (h : firstNamed k cs = some kin) : kin.name = k := by
  induction cs with
  | nil => simp [firstNamed] at h
  | cons c cs ih =>
      by_cases hc : (c.name == k) = true
      · rw [firstNamed, if_pos hc] at h
        cases h
        simpa using hc
      · rw [firstNamed, if_neg (by simpa using hc)] at h
        exact ih h

/-- A found child carries the looked-up name. -/
theorem Node.lookup_name {S : Node} {k : String} {kin : Node}
    (h : S.lookup k = some kin) : kin.name = k :=
  firstNamed_name h

/-- Lookup after `replaceFirst` at a present key returns the replacement. -/
theorem firstNamed_replaceFirst (cs : List Node) (k : String) (c' : Node)
    (hn : c'.name = k) :
    (firstNamed k cs).isSome = true →
    firstNamed k (replaceFirst cs k c') = some c' := by
  induction cs with
  | nil => intro h; simp [firstNamed] at h
  | cons c cs ih =>
      intro h
      obtain ⟨cn, cp, cf, ccs⟩ := c
      by_cases hc : (cn == k) = true
      · rw [replaceFirst, if_pos (by simpa using hc)]
        rw [firstNamed, if_pos (by simpa using hn)]
      · have hc' : ¬ cn = k := by simpa using hc
        rw [replaceFirst, if_neg (by simpa using hc')]
        rw [firstNamed, if_neg (by simpa using hc')]
        rw [firstNamed, if_neg (by simpa using hc')] at h
        exact ih h

/-- `upgradeWalk` at a single-segment path replaces the found child's
field and leaves its name, stored path and children alone (whatever
re-stamp the root receives). -/
theorem upgradeWalk_lookup {S : Node} {k : String} {kin : Node}
    (h : S.lookup k = some kin) (nf : FieldV) (nty : DataType) :
    (upgradeWalk S [k] nf nty).lookup k =
      some (.mk kin.name kin.path nf kin.children) := by
  have hname : kin.name = k := Node.lookup_name h
  have hrep := firstNamed_replaceFirst S.children k
    (.mk kin.name kin.path nf kin.children) (by simpa using hname)
    (by simp [Node.lookup] at h; simp [h])
  simp only [upgradeWalk, h]
  cases hid : S.field.ty.id <;>
    simp_all [Node.lookup]

/-- `getPath` at one segment is the child lookup. -/
theorem getPath_single (S : Node) (k : String) :
    getPath S [k] = S.lookup k := rfl

/-- `mapToArrow` on a scalar entry: the default branch stamps the
classified field. -/
theorem walkEntry_scalar (o : ClassOpts) (pfx : List String) (k : String)
    {v : Value} (hsc : v.isScalar = true) :
    walkEntry o pfx k v =
      ⟨[.mk k (pfx ++ [k]) ⟨k, goType2Arrow o v⟩ []], [],
       [dotPathOf (pfx ++ [k])]⟩ := by
  cases v <;> first | rfl | simp [Value.isScalar] at hsc

/-- Walking a one-scalar record. -/
theorem walkRecord_single (o : ClassOpts) (name : String) {v : Value}
    (hsc : v.isScalar = true) :
    walkRecord o [(name, v)] =
      (.mk "" [] ⟨"", .strukt [(name, goType2Arrow o v)]⟩
         [.mk name [name] ⟨name, goType2Arrow o v⟩ []],
       [], [dotPathOf [name]]) := by
  simp [walkRecord, walkEntries, walkEntry_scalar o [] name hsc, recFieldsOf]

/-- `Unify` of a one-scalar record under the count cap: no error, and the
cumulative tree and the change log are those produced by one `merge` of the
classified leaf. -/
theorem unify_single_scalar (u : Bod) (name : String) {v : Value}
    (hcnt : ¬ u.count > u.maxCount) (hsc : v.isScalar = true) :
    (unify u (.vmap [(name, v)])).2 = none ∧
    (unify u (.vmap [(name, v)])).1.old =
      (mergeNode ⟨u.old, u.changes,
          knownInsertAll u.known [dotPathOf [name]], u.typeConversion⟩ []
        (.mk name [name] ⟨name, goType2Arrow u.classOpts v⟩ [])).old ∧
    (unify u (.vmap [(name, v)])).1.changes =
      (mergeNode ⟨u.old, u.changes,
          knownInsertAll u.known [dotPathOf [name]], u.typeConversion⟩ []
        (.mk name [name] ⟨name, goType2Arrow u.classOpts v⟩ [])).changes := by
  simp [unify, hcnt, inputMap, walkRecord_single u.classOpts name hsc,
    mergeChildren, Bod.mst, pendInsertAll, knownInsertAll]

/-- `merge` of a classified scalar leaf that hits a conflicting node: the
guard passes and the nested switch dispatches on the two type ids. -/
theorem mergeNode_scalar_hit (ms : MSt) (name : String) (nty : DataType)
    (kin : Node) (hkin : getPath ms.old [name] = some kin)
    (htc : ms.tc = true) (hne : kin.field.ty.id ≠ nty.id) :
    mergeNode ms [] (.mk name [name] ⟨name, nty⟩ []) =
      (match upgradeTarget kin.field.ty.id nty.id with
       | some t => upgradeApply ms [name] kin (.mk name [name] ⟨name, nty⟩ []) t
       | none => ms) := by
  obtain ⟨knm, kp, kf, kcs⟩ := kin
  simp only [Node.field] at hne ⊢
  have hbeq : FieldV.beq kf ⟨name, nty⟩ = false :=
    FieldV.beq_false_of_id_ne (a := kf) (b := ⟨name, nty⟩) (by simpa using hne)
  have hguard : mergeGuard ms.tc kf ⟨name, nty⟩ = true := by
    simp [mergeGuard, htc, hbeq, beq_eq_false_iff_ne, hne]
  simp [mergeNode, hkin, hguard, mergeChildren]

/-- The hit case when the switch reaches an `upgradeType` call. -/
theorem mergeNode_scalar_hit_some (ms : MSt) (name : String)
    (nty : DataType) (kin : Node) {t : TypeID}
    (hkin : getPath ms.old [name] = some kin)
    (htc : ms.tc = true) (hne : kin.field.ty.id ≠ nty.id)
    (ht : upgradeTarget kin.field.ty.id nty.id = some t) :
    mergeNode ms [] (.mk name [name] ⟨name, nty⟩ []) =
      upgradeApply ms [name] kin (.mk name [name] ⟨name, nty⟩ []) t := by
  obtain ⟨knm, kp, kf, kcs⟩ := kin
  have hbase := mergeNode_scalar_hit ms name nty
    (.mk knm kp kf kcs) hkin htc hne
  simp only [Node.field] at hbase ht
  rw [hbase, ht]

/-- The hit case when the switch has no matching `upgradeType` call. -/
theorem mergeNode_scalar_hit_none (ms : MSt) (name : String)
    (nty : DataType) (kin : Node)
    (hkin : getPath ms.old [name] = some kin)
    (htc : ms.tc = true) (hne : kin.field.ty.id ≠ nty.id)
    (ht : upgradeTarget kin.field.ty.id nty.id = none) :
    mergeNode ms [] (.mk name [name] ⟨name, nty⟩ []) = ms := by
  obtain ⟨knm, kp, kf, kcs⟩ := kin
  have hbase := mergeNode_scalar_hit ms name nty
    (.mk knm kp kf kcs) hkin htc hne
  simp only [Node.field] at hbase ht
  rw [hbase, ht]

/-- C4 (amended).  With type conversion on, a Date32 path observed with a
Timestamp-classified scalar is promoted to `Timestamp_ms` (millisecond
unit, UTC) — not TimestampUs — and exactly one promotion entry is appended
to the change log. -/
theorem C4_date32_timestamp_promotes_to_ms
    (u : Bod) (name : String) (kin : Node) (v : Value)
    (htc : u.typeConversion = true)
    (hcnt : ¬ u.count > u.maxCount)
    (hkin : getPath u.old [name] = some kin)
    (hty : kin.field.ty = .date32)
    (hsc : v.isScalar = true)
    (hv : goType2Arrow u.classOpts v = .timestampUs) :
    (unify u (.vmap [(name, v)])).2 = none ∧
    fieldTyAt (unify u (.vmap [(name, v)])).1.old [name] =
      some .timestampMsUTC ∧
    (unify u (.vmap [(name, v)])).1.changes =
      u.changes ++ [.changed (dotPathOf kin.path) .date32 .timestampMsUTC] := by
  obtain ⟨h2, hold, hch⟩ := unify_single_scalar u name hcnt hsc
  have hne : kin.field.ty.id ≠ (goType2Arrow u.classOpts v).id := by
    rw [hty, hv]; decide
  have hmg := mergeNode_scalar_hit_some
    ⟨u.old, u.changes, knownInsertAll u.known [dotPathOf [name]],
     u.typeConversion⟩ name (goType2Arrow u.classOpts v) kin
    (t := .TIMESTAMP) hkin htc hne (by rw [hty, hv]; rfl)
  rw [hv] at hmg hold hch
  simp only [upgradeApply, UpgradableTypes, upgradeNewField,
    RecNode.field, hty, DataType.id] at hmg
  norm_num at hmg
  have hlk : u.old.lookup name = some kin := by
    rw [← getPath_single]; exact hkin
  refine ⟨h2, ?_, ?_⟩
  · rw [fieldTyAt, hold, hmg]
    simp [getPath_single, upgradeWalk_lookup hlk]
  · rw [hch, hmg]
    simp [hty]

/-- Witness for C4 at the concrete Date32 scenario. -/
theorem C4_date32_timestamp_witness :
    (unify c4State
      (.vmap [("datefield", .vstr "2024-10-24T19:03:09+00:00")])).2 = none ∧
    fieldTyAt (unify c4State
      (.vmap [("datefield", .vstr "2024-10-24T19:03:09+00:00")])).1.old
      ["datefield"] = some .timestampMsUTC ∧
    (unify c4State
      (.vmap [("datefield", .vstr "2024-10-24T19:03:09+00:00")])).1.changes =
      c4State.changes ++
        [.changed (dotPathOf ["datefield"]) .date32 .timestampMsUTC] :=
  C4_date32_timestamp_promotes_to_ms c4State "datefield"
    (.mk "datefield" ["datefield"] ⟨"datefield", .date32⟩ [])
    (.vstr "2024-10-24T19:03:09+00:00")
    rfl (by decide) rfl rfl rfl rfl

/-- The integer data types, signed then unsigned. -/
def signedIntTys : List DataType := [.int8, .int16, .int32, .int64]

def unsignedIntTys : List DataType := [.uint8, .uint16, .uint32, .uint64]

def intTys : List DataType := signedIntTys ++ unsignedIntTys

/-- The integer type ids. -/
def intIds : List TypeID :=
  [.INT8, .INT16, .INT32, .INT64, .UINT8, .UINT16, .UINT32, .UINT64]

/-- C5 (amended).  With type conversion on, when a path's cumulative type
is an integer type and a record observes the same path with a different
integer type, nothing widens to Int64: a signed new observation (in
`UpgradableTypes`) promotes the path to String with one change entry, and
an unsigned new observation (not in `UpgradableTypes`) is silently dropped
by the `upgradeType` gate, leaving type and change log untouched. -/
theorem C5_conflicting_ints_string_or_unchanged
    (u : Bod) (name : String) (kin : Node) (v : Value)
    (htc : u.typeConversion = true)
    (hcnt : ¬ u.count > u.maxCount)
    (hkin : getPath u.old [name] = some kin)
    (hkty : kin.field.ty ∈ intTys)
    (hsc : v.isScalar = true)
    (hvty : goType2Arrow u.classOpts v ∈ intTys)
    (hne : goType2Arrow u.classOpts v ≠ kin.field.ty) :
    (unify u (.vmap [(name, v)])).2 = none ∧
    (goType2Arrow u.classOpts v ∈ signedIntTys →
      fieldTyAt (unify u (.vmap [(name, v)])).1.old [name] = some .utf8 ∧
      (unify u (.vmap [(name, v)])).1.changes =
        u.changes ++ [.changed (dotPathOf kin.path) kin.field.ty .utf8]) ∧
    (goType2Arrow u.classOpts v ∈ unsignedIntTys →
      fieldTyAt (unify u (.vmap [(name, v)])).1.old [name] =
        some kin.field.ty ∧
      (unify u (.vmap [(name, v)])).1.changes = u.changes) := by
  obtain ⟨h2, hold, hch⟩ := unify_single_scalar u name hcnt hsc
  have hkid : kin.field.ty.id ∈ intIds := by
    have hall : ∀ a ∈ intTys, a.id ∈ intIds := by decide
    exact hall _ hkty
  have hnid : (goType2Arrow u.classOpts v).id ∈ intIds := by
    have hall : ∀ a ∈ intTys, a.id ∈ intIds := by decide
    exact hall _ hvty
  have hneid : kin.field.ty.id ≠ (goType2Arrow u.classOpts v).id := by
    have hk2 := hkty
    have hv2 := hvty
    simp only [intTys, signedIntTys, unsignedIntTys, List.mem_append,
      List.mem_cons, List.not_mem_nil, or_false] at hk2 hv2
    rcases hk2 with (h1|h1|h1|h1)|h1|h1|h1|h1 <;>
      rcases hv2 with (h2|h2|h2|h2)|h2|h2|h2|h2 <;>
      first
        | exact absurd (h2.trans h1.symm) hne
        | (rw [h1, h2]; decide)
  have htgt :
      upgradeTarget kin.field.ty.id (goType2Arrow u.classOpts v).id =
        some .STRING := by
    have hall : ∀ x ∈ intIds, ∀ y ∈ intIds,
        upgradeTarget x y = some .STRING := by decide
    exact hall _ hkid _ hnid
  have hmg := mergeNode_scalar_hit_some
    ⟨u.old, u.changes, knownInsertAll u.known [dotPathOf [name]],
     u.typeConversion⟩ name (goType2Arrow u.classOpts v) kin
    (t := .STRING) hkin htc hneid htgt
  have hlk : u.old.lookup name = some kin := by
    rw [← getPath_single]; exact hkin
  refine ⟨h2, ?_, ?_⟩
  · intro hs
    have hgate :
        UpgradableTypes.contains (goType2Arrow u.classOpts v).id = true := by
      have hall : ∀ a ∈ signedIntTys,
          UpgradableTypes.contains a.id = true := by decide
      exact hall _ hs
    have happ : upgradeApply
        ⟨u.old, u.changes, knownInsertAll u.known [dotPathOf [name]],
         u.typeConversion⟩ [name] kin
        (.mk name [name] ⟨name, goType2Arrow u.classOpts v⟩ []) .STRING =
        ⟨upgradeWalk u.old [name] ⟨kin.field.name, .utf8⟩
            (goType2Arrow u.classOpts v),
         u.changes ++ [.changed (dotPathOf kin.path) kin.field.ty .utf8],
         knownInsertAll u.known [dotPathOf [name]], u.typeConversion⟩ := by
      have hgate' : (goType2Arrow u.classOpts v).id ∈ UpgradableTypes := by
        simpa using hgate
      simp [upgradeApply, hgate', upgradeNewField]
    rw [happ] at hmg
    constructor
    · rw [fieldTyAt, hold, hmg]
      simp [getPath_single, upgradeWalk_lookup hlk]
    · rw [hch, hmg]
  · intro hu
    have hgate :
        UpgradableTypes.contains (goType2Arrow u.classOpts v).id = false := by
      have hall : ∀ a ∈ unsignedIntTys,
          UpgradableTypes.contains a.id = false := by decide
      exact hall _ hu
    have happ : upgradeApply
        ⟨u.old, u.changes, knownInsertAll u.known [dotPathOf [name]],
         u.typeConversion⟩ [name] kin
        (.mk name [name] ⟨name, goType2Arrow u.classOpts v⟩ []) .STRING =
        ⟨u.old, u.changes, knownInsertAll u.known [dotPathOf [name]],
         u.typeConversion⟩ := by
      have hgate' : ¬ (goType2Arrow u.classOpts v).id ∈ UpgradableTypes := by
        simpa using hgate
      simp [upgradeApply, hgate']
    rw [happ] at hmg
    constructor
    · rw [fieldTyAt, hold, hmg]
      simp [hkin]
    · rw [hch, hmg]

/-- Witness for C5 (signed case) at the concrete scenario, and a second
application showing the unsigned case leaves the state alone. -/
theorem C5_conflicting_ints_witness :
    (fieldTyAt (unify c5State (.vmap [("a", Value.vint8)])).1.old ["a"] =
      some .utf8 ∧
     (unify c5State (.vmap [("a", Value.vint8)])).1.changes =
       c5State.changes ++ [.changed (dotPathOf ["a"]) .int64 .utf8]) ∧
    (fieldTyAt (unify c5State (.vmap [("a", Value.vuint8)])).1.old ["a"] =
      some .int64 ∧
     (unify c5State (.vmap [("a", Value.vuint8)])).1.changes =
       c5State.changes) :=
  ⟨(C5_conflicting_ints_string_or_unchanged c5State "a"
      (.mk "a" ["a"] ⟨"a", .int64⟩ []) Value.vint8
      rfl (by decide) rfl
      (by show DataType.int64 ∈ intTys
          simp [intTys, signedIntTys, unsignedIntTys])
      rfl
      (by show DataType.int8 ∈ intTys
          simp [intTys, signedIntTys, unsignedIntTys])
      (by show DataType.int8 ≠ DataType.int64
          simp)).2.1
    (by show DataType.int8 ∈ signedIntTys
        simp [signedIntTys]),
   (C5_conflicting_ints_string_or_unchanged c5State "a"
      (.mk "a" ["a"] ⟨"a", .int64⟩ []) Value.vuint8
      rfl (by decide) rfl
      (by show DataType.int64 ∈ intTys
          simp [intTys, signedIntTys, unsignedIntTys])
      rfl
      (by show DataType.uint8 ∈ intTys
          simp [intTys, signedIntTys, unsignedIntTys])
      (by show DataType.uint8 ≠ DataType.int64
          simp)).2.2
    (by show DataType.uint8 ∈ unsignedIntTys
        simp [unsignedIntTys])⟩

/- ------------------------------------------------------------------ -/
/- Frame lemmas for graft and upgrade: infrastructure for the String
   attractor (C8) and idempotence (C7) claims.                         -/
/- ------------------------------------------------------------------ -/

/-- Total position lookup: `getAt S []` is the root itself; on non-empty
paths it agrees with `getPath`. -/
def getAt (S : Node) : List String → Option Node
  | [] => some S
  | k :: ks =>
      match S.lookup k with
      | none => none
      | some c => getAt c ks

theorem getAt_eq_getPath (p : List String) (hp : p ≠ []) :
    ∀ S : Node, getAt S p = getPath S p := by
  induction p with
  | nil => exact absurd rfl hp
  | cons k ks ih =>
      intro S
      cases ks with
      | nil =>
          simp only [getAt, getPath]
          cases S.lookup k <;> simp [getAt]
      | cons k' ks' =>
          simp only [getAt, getPath]
          cases S.lookup k with
          | none => rfl
          | some c => exact ih (by simp) c

/-- `getPath` splits over concatenation of non-empty paths. -/
theorem getPath_append (xs ys : List String) (hx : xs ≠ []) (hy : ys ≠ []) :
    ∀ S : Node, getPath S (xs ++ ys) =
      (getPath S xs).bind fun t => getPath t ys := by
  induction xs with
  | nil => exact absurd rfl hx
  | cons k ks ih =>
      intro S
      cases ks with
      | nil =>
          cases ys with
          | nil => exact absurd rfl hy
          | cons y ys' =>
              simp only [List.cons_append, List.nil_append, getPath]
              cases S.lookup k <;> simp
      | cons k' ks' =>
          simp only [List.cons_append, getPath]
          cases hk : S.lookup k with
          | none => simp
          | some c => simpa using ih (by simp) c

/-- Lookup ignores a replacement whose name differs from the query. -/
theorem firstNamed_replaceFirst_ne (cs : List Node) (k j : String)
    (c' : Node) (hn : c'.name = k) (hj : j ≠ k) :
    firstNamed j (replaceFirst cs k c') = firstNamed j cs := by
  obtain ⟨n', p', f', gcs⟩ := c'
  simp only [Node.name] at hn
  subst hn
  induction cs with
  | nil => rfl
  | cons c cs ih =>
      obtain ⟨cn, cp, cf, ccs⟩ := c
      by_cases hc : cn = n'
      · subst hc
        simp [replaceFirst, firstNamed, Ne.symm hj]
      · simp [replaceFirst, firstNamed, hc, ih]

/-- Lookup is unaffected by appending when it already succeeds. -/
theorem firstNamed_append_left {cs : List Node} {j : String} {x : Node}
    (h : firstNamed j cs = some x) (g : Node) :
    firstNamed j (cs ++ [g]) = some x := by
  induction cs with
  | nil => simp [firstNamed] at h
  | cons c cs ih =>
      by_cases hc : (c.name == j) = true
      · rw [firstNamed, if_pos hc] at h
        rw [List.cons_append, firstNamed, if_pos hc]
        exact h
      · rw [firstNamed, if_neg (by simpa using hc)] at h
        rw [List.cons_append, firstNamed, if_neg (by simpa using hc)]
        exact ih h

/-- Lookup finds an appended node when it previously failed and the name
matches. -/
theorem firstNamed_append_right {cs : List Node} {j : String}
    (h : firstNamed j cs = none) {g : Node} (hg : g.name = j) :
    firstNamed j (cs ++ [g]) = some g := by
  induction cs with
  | nil =>
      rw [List.nil_append, firstNamed, if_pos (by simpa using hg)]
  | cons c cs ih =>
      by_cases hc : (c.name == j) = true
      · rw [firstNamed, if_pos hc] at h; cases h
      · rw [firstNamed, if_neg (by simpa using hc)] at h
        rw [List.cons_append, firstNamed, if_neg (by simpa using hc)]
        exact ih h

/-- `upgradeWalk` keeps the start node's name. -/
theorem upgradeWalk_name (q : List String) (cur : Node) (nf : FieldV)
    (nty : DataType) : (upgradeWalk cur q nf nty).name = cur.name := by
  obtain ⟨nm, pth, fld, cs⟩ := cur
  obtain ⟨fn, fty⟩ := fld
  match q with
  | [] => rfl
  | [k] =>
      simp only [upgradeWalk, Node.lookup, Node.children]
      cases firstNamed k cs with
      | none => rfl
      | some o => cases fty <;> rfl
  | k :: k' :: ks =>
      simp only [upgradeWalk, Node.lookup, Node.children]
      cases firstNamed k cs with
      | none => rfl
      | some c => rfl

/-- `upgradeWalk` keeps the start node's field type id (the composite
re-stamps replace a list field by a list field and a struct field by a
struct field). -/
theorem upgradeWalk_field_id (q : List String) (cur : Node) (nf : FieldV)
    (nty : DataType) :
    (upgradeWalk cur q nf nty).field.ty.id = cur.field.ty.id := by
  obtain ⟨nm, pth, fld, cs⟩ := cur
  obtain ⟨fn, fty⟩ := fld
  match q with
  | [] => rfl
  | [k] =>
      simp only [upgradeWalk, Node.lookup, Node.children]
      cases firstNamed k cs with
      | none => rfl
      | some o => cases fty <;> rfl
  | k :: k' :: ks =>
      simp only [upgradeWalk, Node.lookup, Node.children]
      cases firstNamed k cs with
      | none => rfl
      | some c => rfl

/-- `graftWalk` keeps the start node's name. -/
theorem graftWalk_name (q : List String) (cur : Node) (g : Node) :
    (graftWalk cur q g).name = cur.name := by
  obtain ⟨nm, pth, fld, cs⟩ := cur
  obtain ⟨fn, fty⟩ := fld
  match q with
  | [] =>
      simp only [graftWalk, graftInto]
      cases fty <;> rfl
  | [k] =>
      simp only [graftWalk, Node.lookup, Node.children]
      cases firstNamed k cs with
      | none => rfl
      | some f =>
          cases hcond : ((graftInto f g).2 && (DataType.id fty == TypeID.LIST)) <;>
            simp [hcond]
  | k :: k' :: ks =>
      simp only [graftWalk, Node.lookup, Node.children]
      cases firstNamed k cs with
      | none => rfl
      | some c => rfl

/-- `graftWalk` keeps the start node's field type id. -/
theorem graftWalk_field_id (q : List String) (cur : Node) (g : Node) :
    (graftWalk cur q g).field.ty.id = cur.field.ty.id := by
  obtain ⟨nm, pth, fld, cs⟩ := cur
  obtain ⟨fn, fty⟩ := fld
  match q with
  | [] =>
      simp only [graftWalk, graftInto, Node.field]
      cases fty <;> simp [DataType.id]
  | [k] =>
      simp only [graftWalk, Node.lookup, Node.children]
      cases firstNamed k cs with
      | none => rfl
      | some f =>
          cases hcond : ((graftInto f g).2 && (DataType.id fty == TypeID.LIST)) with
          | false => simp [hcond]
          | true =>
              have hg2 : (graftInto f g).2 = true :=
                (Bool.and_eq_true _ _ |>.mp hcond).1
              have hL : DataType.id fty = TypeID.LIST := by
                simpa using (Bool.and_eq_true _ _ |>.mp hcond).2
              cases fty
              case list e => simp [DataType.id, hg2]
              all_goals simp [DataType.id] at hL
  | k :: k' :: ks =>
      simp only [graftWalk, Node.lookup, Node.children]
      cases firstNamed k cs with
      | none => rfl
      | some c => rfl

@[simp]
theorem getPath_nil (S : Node) : getPath S [] = none := rfl

@[simp]
theorem getAt_nil (S : Node) : getAt S [] = some S := rfl

/-- `graft` keeps the receiving node's `name`. -/
theorem graftInto_name (f g : Node) : (graftInto f g).1.name = f.name := by
  obtain ⟨nm, pth, ⟨fn, fty⟩, cs⟩ := f
  cases fty <;> rfl

/-- `graft` appends the grafted node to the receiver's children in both
branches. -/
theorem graftInto_children (f g : Node) :
    (graftInto f g).1.children = f.children ++ [g] := by
  obtain ⟨nm, pth, ⟨fn, fty⟩, cs⟩ := f
  cases fty <;> rfl

/-- `graft` keeps the receiving node's field type id (the struct branch
extends the struct, the other branch leaves the field alone). -/
theorem graftInto_id (f g : Node) :
    (graftInto f g).1.field.ty.id = f.field.ty.id := by
  obtain ⟨nm, pth, ⟨fn, fty⟩, cs⟩ := f
  cases fty <;> simp [graftInto, DataType.id]

/-- Positional lookup along a non-empty path ignores the root's name, path
and field. -/
theorem getAt_cons_congr (f1 f2 : FieldV) (a1 a2 : String)
    (q1 q2 : List String) (cs : List Node) (x : String) (xs : List String) :
    getAt (.mk a1 q1 f1 cs) (x :: xs) = getAt (.mk a2 q2 f2 cs) (x :: xs) :=
  rfl

/-- Frame lemma for `graft`'s node surgery at the target itself: every node
present before is present after, with the same field type id. -/
theorem getAt_graftInto (S g : Node) :
    ∀ (p : List String) (kin : Node), getAt S p = some kin →
    ∃ kin', getAt (graftInto S g).1 p = some kin' ∧
      kin'.field.ty.id = kin.field.ty.id := by
  intro p kin h
  cases p with
  | nil =>
      simp only [getAt_nil, Option.some.injEq] at h
      subst h
      exact ⟨_, rfl, graftInto_id S g⟩
  | cons j ks =>
      obtain ⟨nm, pth, fld, cs⟩ := S
      simp only [getAt, Node.lookup, Node.children] at h ⊢
      cases hf : firstNamed j cs with
      | none => simp [hf] at h
      | some c =>
          simp only [hf] at h
          refine ⟨kin, ?_, rfl⟩
          have hch := graftInto_children (Node.mk nm pth fld cs) g
          simp only [Node.children] at hch
          rw [hch, firstNamed_append_left hf g]
          exact h

/-- Frame lemma for `graft` at any position: every node present before the
graft is present after it, with the same field type id (the target's
surgery keeps or extends a struct, the grandparent re-stamp replaces a list
by a list). -/
theorem getAt_graftWalk : ∀ (pos : List String) (g S : Node)
    (p : List String) (kin : Node), getAt S p = some kin →
    ∃ kin', getAt (graftWalk S pos g) p = some kin' ∧
      kin'.field.ty.id = kin.field.ty.id := by
  intro pos
  induction pos with
  | nil => intro g S p kin h; exact getAt_graftInto S g p kin h
  | cons k0 pos' ih =>
      intro g S p kin h
      cases p with
      | nil =>
          simp only [getAt_nil, Option.some.injEq] at h
          subst h
          exact ⟨_, rfl, graftWalk_field_id (k0 :: pos') S g⟩
      | cons j ks =>
          obtain ⟨nm, pth, fld, cs⟩ := S
          simp only [getAt, Node.lookup, Node.children] at h
          cases hf : firstNamed k0 cs with
          | none =>
              have hres : graftWalk (Node.mk nm pth fld cs) (k0 :: pos') g =
                  Node.mk nm pth fld cs := by
                cases pos' <;> simp [graftWalk, Node.lookup, hf]
              rw [hres]
              refine ⟨kin, ?_, rfl⟩
              simp only [getAt, Node.lookup, Node.children]
              exact h
          | some f =>
              have hfname : f.name = k0 := firstNamed_name hf
              obtain ⟨f', hchild, hfname', hsub⟩ :
                  ∃ f',
                    (graftWalk (Node.mk nm pth fld cs) (k0 :: pos') g).children
                      = replaceFirst cs k0 f' ∧ f'.name = k0 ∧
                    ∀ q kin0, getAt f q = some kin0 →
                      ∃ kin', getAt f' q = some kin' ∧
                        kin'.field.ty.id = kin0.field.ty.id := by
                cases pos' with
                | nil =>
                    refine ⟨(graftInto f g).1, ?_, ?_, getAt_graftInto f g⟩
                    · simp only [graftWalk, Node.lookup, Node.children, hf]
                      cases hcond : ((graftInto f g).2 &&
                          (fld.ty.id == TypeID.LIST)) <;> simp [hcond]
                    · rw [graftInto_name]; exact hfname
                | cons k1 ks1 =>
                    refine ⟨graftWalk f (k1 :: ks1) g, ?_, ?_,
                      fun q kin0 h0 => ih g f q kin0 h0⟩
                    · simp only [graftWalk, Node.lookup, Node.children, hf]
                    · rw [graftWalk_name]; exact hfname
              by_cases hj : j = k0
              · subst hj
                simp only [hf] at h
                obtain ⟨kin', hk', hid⟩ := hsub ks kin h
                have hrep := firstNamed_replaceFirst cs j f' hfname'
                  (by simp [hf])
                refine ⟨kin', ?_, hid⟩
                simp only [getAt, Node.lookup, hchild, hrep]
                exact hk'
              · refine ⟨kin, ?_, rfl⟩
                simp only [getAt, Node.lookup, hchild,
                  firstNamed_replaceFirst_ne cs k0 j f' hfname' hj]
                exact h

/-- Frame lemma for `upgradeType`'s tree surgery: every node present before
is present after; its field type id is unchanged except exactly at the
re-stamped position, where the node keeps its name, stored path and
children and receives the new field. -/
theorem getAt_upgradeWalk : ∀ (q : List String) (nf : FieldV)
    (nty : DataType) (S : Node) (p : List String) (kin : Node),
    getAt S p = some kin →
    ∃ kin', getAt (upgradeWalk S q nf nty) p = some kin' ∧
      (kin'.field.ty.id = kin.field.ty.id ∨
        (p = q ∧ kin' = .mk kin.name kin.path nf kin.children)) := by
  intro q
  induction q with
  | nil => intro nf nty S p kin h; exact ⟨kin, h, .inl rfl⟩
  | cons k0 q' ih =>
      intro nf nty S p kin h
      cases p with
      | nil =>
          simp only [getAt_nil, Option.some.injEq] at h
          subst h
          exact ⟨_, rfl, .inl (upgradeWalk_field_id (k0 :: q') S nf nty)⟩
      | cons j ks =>
          obtain ⟨nm, pth, ⟨fn, fty⟩, cs⟩ := S
          simp only [getAt, Node.lookup, Node.children] at h
          cases hf : firstNamed k0 cs with
          | none =>
              have hres : upgradeWalk (Node.mk nm pth ⟨fn, fty⟩ cs)
                  (k0 :: q') nf nty = Node.mk nm pth ⟨fn, fty⟩ cs := by
                cases q' <;> simp [upgradeWalk, Node.lookup, hf]
              rw [hres]
              refine ⟨kin, ?_, .inl rfl⟩
              simp only [getAt, Node.lookup, Node.children]
              exact h
          | some f =>
              have hfname : f.name = k0 := firstNamed_name hf
              obtain ⟨f', hchild, hfname', hsub⟩ :
                  ∃ f',
                    (upgradeWalk (Node.mk nm pth ⟨fn, fty⟩ cs) (k0 :: q')
                        nf nty).children = replaceFirst cs k0 f' ∧
                    f'.name = k0 ∧
                    ∀ qq kin0, getAt f qq = some kin0 →
                      ∃ kin', getAt f' qq = some kin' ∧
                        (kin'.field.ty.id = kin0.field.ty.id ∨
                          (qq = q' ∧
                           kin' = .mk kin0.name kin0.path nf kin0.children)) := by
                cases q' with
                | nil =>
                    refine ⟨.mk f.name f.path nf f.children, ?_, hfname, ?_⟩
                    · simp only [upgradeWalk, Node.lookup, Node.children, hf]
                      cases fty <;> rfl
                    · intro qq kin0 h0
                      cases qq with
                      | nil =>
                          simp only [getAt_nil, Option.some.injEq] at h0
                          subst h0
                          exact ⟨_, rfl, .inr ⟨rfl, rfl⟩⟩
                      | cons x xs =>
                          obtain ⟨a, b, c, d⟩ := f
                          exact ⟨kin0, h0, .inl rfl⟩
                | cons k1 ks1 =>
                    refine ⟨upgradeWalk f (k1 :: ks1) nf nty, ?_, ?_,
                      fun qq kin0 h0 => ih nf nty f qq kin0 h0⟩
                    · simp only [upgradeWalk, Node.lookup, Node.children, hf]
                    · rw [upgradeWalk_name]; exact hfname
              by_cases hj : j = k0
              · subst hj
                simp only [hf] at h
                obtain ⟨kin', hk', hd⟩ := hsub ks kin h
                have hrep := firstNamed_replaceFirst cs j f' hfname'
                  (by simp [hf])
                refine ⟨kin', ?_, ?_⟩
                · simp only [getAt, Node.lookup, hchild, hrep]
                  exact hk'
                · rcases hd with hid | ⟨hqq, hk⟩
                  · exact .inl hid
                  · exact .inr ⟨by rw [hqq], hk⟩
              · refine ⟨kin, ?_, .inl rfl⟩
                simp only [getAt, Node.lookup, hchild,
                  firstNamed_replaceFirst_ne cs k0 j f' hfname' hj]
                exact h

/-- A graft at a position whose node lacks a child of the grafted name
makes the grafted node reachable at that position extended by its name. -/
theorem getAt_graftWalk_new : ∀ (pos : List String) (g S b : Node),
    getAt S pos = some b → b.lookup g.name = none →
    getAt (graftWalk S pos g) (pos ++ [g.name]) = some g := by
  intro pos
  induction pos with
  | nil =>
      intro g S b h hmiss
      simp only [getAt_nil, Option.some.injEq] at h
      subst h
      have hg : firstNamed g.name (graftInto S g).1.children = some g := by
        rw [graftInto_children]
        exact firstNamed_append_right (by simpa [Node.lookup] using hmiss) rfl
      simp only [List.nil_append, graftWalk, getAt, Node.lookup, hg]
  | cons k0 pos' ih =>
      intro g S b h hmiss
      obtain ⟨nm, pth, fld, cs⟩ := S
      simp only [getAt, Node.lookup, Node.children] at h
      cases hf : firstNamed k0 cs with
      | none => simp [hf] at h
      | some f =>
          simp only [hf] at h
          have hfname : f.name = k0 := firstNamed_name hf
          cases pos' with
          | nil =>
              simp only [getAt_nil, Option.some.injEq] at h
              subst h
              have hchild :
                  (graftWalk (Node.mk nm pth fld cs) [k0] g).children =
                    replaceFirst cs k0 (graftInto f g).1 := by
                simp only [graftWalk, Node.lookup, Node.children, hf]
                cases hcond : ((graftInto f g).2 &&
                    (fld.ty.id == TypeID.LIST)) <;> simp [hcond]
              have hrep := firstNamed_replaceFirst cs k0 (graftInto f g).1
                (by rw [graftInto_name]; exact hfname) (by simp [hf])
              have hg : firstNamed g.name (graftInto f g).1.children =
                  some g := by
                rw [graftInto_children]
                exact firstNamed_append_right
                  (by simpa [Node.lookup] using hmiss) rfl
              simp only [List.cons_append, List.nil_append]
              simp only [getAt, Node.lookup, hchild, hrep, hg]
          | cons k1 ks1 =>
              have hchild :
                  (graftWalk (Node.mk nm pth fld cs) (k0 :: k1 :: ks1)
                      g).children
                    = replaceFirst cs k0 (graftWalk f (k1 :: ks1) g) := by
                simp only [graftWalk, Node.lookup, Node.children, hf]
              have hrep := firstNamed_replaceFirst cs k0
                (graftWalk f (k1 :: ks1) g)
                (by rw [graftWalk_name]; exact hfname) (by simp [hf])
              have hrec := ih g f b h hmiss
              simp only [List.cons_append]
              simp only [getAt, Node.lookup, hchild, hrep]
              exact hrec

/-- `upgradeType`'s surgery at its own position: the node there keeps its
name, stored path and children and receives the new field. -/
theorem getAt_upgradeWalk_self : ∀ (q : List String) (nf : FieldV)
    (nty : DataType) (S o : Node), getAt S q = some o → q ≠ [] →
    getAt (upgradeWalk S q nf nty) q =
      some (.mk o.name o.path nf o.children) := by
  intro q
  induction q with
  | nil => intro _ _ _ _ _ hq; exact absurd rfl hq
  | cons k0 q' ih =>
      intro nf nty S o h _
      obtain ⟨nm, pth, ⟨fn, fty⟩, cs⟩ := S
      simp only [getAt, Node.lookup, Node.children] at h
      cases hf : firstNamed k0 cs with
      | none => simp [hf] at h
      | some f =>
          simp only [hf] at h
          have hfname : f.name = k0 := firstNamed_name hf
          cases q' with
          | nil =>
              simp only [getAt_nil, Option.some.injEq] at h
              subst h
              have hchild :
                  (upgradeWalk (Node.mk nm pth ⟨fn, fty⟩ cs) [k0]
                      nf nty).children
                    = replaceFirst cs k0 (.mk f.name f.path nf f.children) := by
                simp only [upgradeWalk, Node.lookup, Node.children, hf]
                cases fty <;> rfl
              have hrep := firstNamed_replaceFirst cs k0
                (.mk f.name f.path nf f.children) hfname (by simp [hf])
              simp only [getAt, Node.lookup, hchild, hrep]
          | cons k1 ks1 =>
              have hchild :
                  (upgradeWalk (Node.mk nm pth ⟨fn, fty⟩ cs)
                      (k0 :: k1 :: ks1) nf nty).children
                    = replaceFirst cs k0
                        (upgradeWalk f (k1 :: ks1) nf nty) := by
                simp only [upgradeWalk, Node.lookup, Node.children, hf]
              have hrep := firstNamed_replaceFirst cs k0
                (upgradeWalk f (k1 :: ks1) nf nty)
                (by rw [upgradeWalk_name]; exact hfname) (by simp [hf])
              have hrec := ih nf nty f o h (by simp)
              simp only [getAt, Node.lookup, hchild, hrep]
              exact hrec

/- ------------------------------------------------------------------ -/
/- The promotion order: absorbing ids and gate-passed upgrade steps.   -/
/- ------------------------------------------------------------------ -/

/-- The stamped type id of `upgradeType`: the field is re-stamped for the
targets `FLOAT64`, `STRING` and `TIMESTAMP` and kept otherwise. -/
def stampId (k t : TypeID) : TypeID :=
  match t with
  | .FLOAT64 => .FLOAT64
  | .STRING => .STRING
  | .TIMESTAMP => .TIMESTAMP
  | _ => k

theorem upgradeNewField_id (f : FieldV) (t : TypeID) :
    (upgradeNewField f t).ty.id = stampId f.ty.id t := by
  cases t <;> rfl

/-- The conversion switch takes no action on the id pair `(k, n)`: equal
ids, no `upgradeType` call reached, or the `UpgradableTypes` gate rejects
the new id. -/
def NoActIdT (k n : TypeID) : Bool :=
  (k == n) || (upgradeTarget k n).isNone || !(UpgradableTypes.contains n)

/-- `NoActIdT` under the `typeConversion` flag. -/
def NoActId (tc : Bool) (k n : TypeID) : Bool :=
  !tc || NoActIdT k n

/-- One gate-passed upgrade: id `k` is re-stamped to `stampId k t` after a
conflicting observation of id `m`. -/
def UpStep (k k2 : TypeID) : Prop :=
  ∃ m t, upgradeTarget k m = some t ∧ UpgradableTypes.contains m = true ∧
    k2 = stampId k t

set_option maxHeartbeats 1600000 in
/-- Gate-passed targets are `STRING`, or `TIMESTAMP` out of `DATE32`. -/
theorem gate_passed_target : ∀ k m t, upgradeTarget k m = some t →
    UpgradableTypes.contains m = true →
    t = .STRING ∨ (t = .TIMESTAMP ∧ k = .DATE32 ∧ m = .TIMESTAMP) := by
  decide

theorem noActIdT_string : ∀ n, NoActIdT .STRING n = true := by decide

theorem noActIdT_ts_of_date : ∀ n, NoActIdT .DATE32 n = true →
    NoActIdT .TIMESTAMP n = true := by decide

/-- A gate-passed upgrade lands on an id absorbing everything the start
absorbed. -/
theorem upStep_preserves (k k2 n : TypeID) (hs : UpStep k k2)
    (h : NoActIdT k n = true) : NoActIdT k2 n = true := by
  obtain ⟨m, t, hup, hcont, hk2⟩ := hs
  rcases gate_passed_target k m t hup hcont with rfl | ⟨rfl, rfl, rfl⟩
  · subst hk2; exact noActIdT_string n
  · subst hk2; exact noActIdT_ts_of_date n h

theorem upChain_preserves (k k2 n : TypeID)
    (hc : Relation.ReflTransGen UpStep k k2)
    (h : NoActIdT k n = true) : NoActIdT k2 n = true := by
  induction hc with
  | refl => exact h
  | tail _ hbc ih => exact upStep_preserves _ _ n hbc ih

/-- No gate-passed upgrade starts at `STRING`. -/
theorem upStep_string_start (k2 : TypeID) (hs : UpStep .STRING k2) :
    False := by
  obtain ⟨m, t, hup, _, _⟩ := hs
  have hnone : upgradeTarget .STRING m = none := by cases m <;> rfl
  rw [hnone] at hup
  cases hup

theorem upChain_string (k2 : TypeID)
    (hc : Relation.ReflTransGen UpStep .STRING k2) : k2 = .STRING := by
  induction hc with
  | refl => rfl
  | tail _ hbc ih =>
      rw [ih] at hbc
      exact (upStep_string_start _ hbc).elim

/-- `STRING` is the id of exactly the `utf8` data type. -/
theorem DataType.id_string {d : DataType} : d.id = .STRING ↔ d = .utf8 := by
  cases d <;> simp [DataType.id]

mutual
/-- `merge` never changes the `typeConversion` flag of the state. -/
theorem mergeNode_tc : ∀ (n : RecNode) (u : MSt) (mergeAt : List String),
    (mergeNode u mergeAt n).tc = u.tc
  | .mk nm p0 f cs, u, mergeAt => by
      simp only [mergeNode]
      cases hg : getPath u.old (mergeAt ++ p0) with
      | none =>
          by_cases hl : (p0.length == 1) = true
          · rw [if_pos hl]; rfl
          · rw [if_neg hl]
            cases getPath u.old (mergeAt ++ p0.dropLast) <;> rfl
      | some kin0 =>
          rw [mergeChildren_tc cs]
          cases hgd : mergeGuard u.tc kin0.field f
          · rfl
          · cases htg : upgradeTarget kin0.field.ty.id f.ty.id with
            | none => rfl
            | some t =>
                simp only [upgradeApply]
                cases hct : UpgradableTypes.contains
                    (RecNode.field (.mk nm p0 f cs)).ty.id <;> simp [hct]

theorem mergeChildren_tc : ∀ (cs : List RecNode) (u : MSt)
    (mergeAt : List String), (mergeChildren u mergeAt cs).tc = u.tc
  | [], _, _ => rfl
  | c :: cs', u, mergeAt => by
      simp only [mergeChildren]
      rw [mergeChildren_tc cs', mergeNode_tc c u mergeAt]
end

mutual
/-- Frame lemma for `merge`: every node present in the cumulative tree
before a merge is still present after it, its field type id moved only
along gate-passed upgrade steps. -/
theorem mergeNode_frame : ∀ (n : RecNode) (u : MSt)
    (mergeAt p : List String) (kin : Node), getAt u.old p = some kin →
    ∃ kin', getAt (mergeNode u mergeAt n).old p = some kin' ∧
      Relation.ReflTransGen UpStep kin.field.ty.id kin'.field.ty.id
  | .mk nm p0 f cs, u, mergeAt, p, kin, h => by
      simp only [mergeNode]
      split
      next hg =>
        split
        next hl =>
          simp only [graftApply]
          obtain ⟨kin', hk, hid⟩ := getAt_graftWalk [] _ u.old p kin h
          exact ⟨kin', hk, by rw [hid]⟩
        next hl =>
          split
          next b hpar =>
            simp only [graftApply]
            obtain ⟨kin', hk, hid⟩ :=
              getAt_graftWalk (mergeAt ++ p0.dropLast) _ u.old p kin h
            exact ⟨kin', hk, by rw [hid]⟩
          next hpar => exact ⟨kin, h, .refl⟩
      next kin0 hg =>
        split
        next hgd =>
          split
          next t htg =>
            cases hct : UpgradableTypes.contains f.ty.id
            · have hct2 : ¬ f.ty.id ∈ UpgradableTypes := by simpa using hct
              have hid : upgradeApply u (mergeAt ++ p0) kin0
                  (.mk nm p0 f cs) t = u := by
                simp [upgradeApply, hct2]
              rw [hid]
              exact mergeChildren_frame cs u mergeAt p kin h
            · have hct2 : f.ty.id ∈ UpgradableTypes := by simpa using hct
              have hold : (upgradeApply u (mergeAt ++ p0) kin0
                  (.mk nm p0 f cs) t).old
                  = upgradeWalk u.old (mergeAt ++ p0)
                      (upgradeNewField kin0.field t) f.ty := by
                simp [upgradeApply, hct2]
              obtain ⟨kin1, hk1, hd⟩ := getAt_upgradeWalk
                (mergeAt ++ p0) (upgradeNewField kin0.field t) f.ty
                u.old p kin h
              have hk1' : getAt (upgradeApply u (mergeAt ++ p0) kin0
                  (.mk nm p0 f cs) t).old p = some kin1 := by
                rw [hold]; exact hk1
              obtain ⟨kin2, h2, c2⟩ := mergeChildren_frame cs
                (upgradeApply u (mergeAt ++ p0) kin0 (.mk nm p0 f cs) t)
                mergeAt p kin1 hk1'
              refine ⟨kin2, h2, Relation.ReflTransGen.trans ?_ c2⟩
              rcases hd with hid | ⟨hpq, hk⟩
              · rw [hid]
              · subst hpq
                have hne : (mergeAt ++ p0) ≠ [] := fun hnil => by
                  rw [hnil] at hg; simp at hg
                have hkin0 : kin0 = kin := by
                  have hgp := getAt_eq_getPath (mergeAt ++ p0) hne u.old
                  rw [hgp, hg] at h
                  exact Option.some.inj h
                subst hk
                refine Relation.ReflTransGen.single
                  ⟨f.ty.id, t, ?_, hct, ?_⟩
                · rw [← hkin0]
                  exact htg
                · simp only [Node.field]
                  rw [upgradeNewField_id, ← hkin0]
          next htg =>
            exact mergeChildren_frame cs u mergeAt p kin h
        next hgd =>
          exact mergeChildren_frame cs u mergeAt p kin h

theorem mergeChildren_frame : ∀ (cs : List RecNode) (u : MSt)
    (mergeAt p : List String) (kin : Node), getAt u.old p = some kin →
    ∃ kin', getAt (mergeChildren u mergeAt cs).old p = some kin' ∧
      Relation.ReflTransGen UpStep kin.field.ty.id kin'.field.ty.id
  | [], _, _, _, kin, h => ⟨kin, h, .refl⟩
  | c :: cs', u, mergeAt, p, kin, h => by
      simp only [mergeChildren]
      obtain ⟨kin1, h1, c1⟩ := mergeNode_frame c u mergeAt p kin h
      obtain ⟨kin2, h2, c2⟩ :=
        mergeChildren_frame cs' (mergeNode u mergeAt c) mergeAt p kin1 h1
      exact ⟨kin2, h2, c1.trans c2⟩
end

mutual
/-- A record node already reflected in a tree: the cumulative node looked
up at `mergeAt ++ path` exists and absorbs the record field's id, and so
on recursively in the children. -/
def mergedIn (S : Node) (tc : Bool) (mergeAt : List String) : RecNode → Bool
  | .mk _ p f cs =>
      match getPath S (mergeAt ++ p) with
      | none => false
      | some kin =>
          NoActId tc kin.field.ty.id f.ty.id && mergedInList S tc mergeAt cs

def mergedInList (S : Node) (tc : Bool) (mergeAt : List String) :
    List RecNode → Bool
  | [] => true
  | c :: cs => mergedIn S tc mergeAt c && mergedInList S tc mergeAt cs
end

mutual
/-- The no-op lemma: `merge` of a record node already reflected in the
cumulative tree leaves the whole merge state unchanged. -/
theorem mergedIn_noop : ∀ (n : RecNode) (u : MSt) (mergeAt : List String),
    mergedIn u.old u.tc mergeAt n = true → mergeNode u mergeAt n = u
  | .mk nm p0 f cs, u, mergeAt, hm => by
      simp only [mergedIn] at hm
      simp only [mergeNode]
      split
      next hg => rw [hg] at hm; simp at hm
      next kin0 hg =>
        simp only [hg] at hm
        obtain ⟨hna, hrest⟩ := Bool.and_eq_true _ _ |>.mp hm
        split
        next hgd =>
          split
          next t htg =>
            simp only [mergeGuard, Bool.and_eq_true, Bool.not_eq_true']
              at hgd
            obtain ⟨⟨htc, hbeq⟩, hidne⟩ := hgd
            rw [htc] at hna
            simp only [NoActId, Bool.not_true, Bool.false_or] at hna
            simp only [NoActIdT, hidne, htg, Option.isNone_some,
              Bool.false_or, Bool.or_eq_true, Bool.not_eq_true'] at hna
            have hct2 : ¬ f.ty.id ∈ UpgradableTypes := by simpa using hna
            have happ : upgradeApply u (mergeAt ++ p0) kin0
                (.mk nm p0 f cs) t = u := by
              simp [upgradeApply, hct2]
            rw [happ]
            exact mergedInList_noop cs u mergeAt hrest
          next htg => exact mergedInList_noop cs u mergeAt hrest
        next hgd => exact mergedInList_noop cs u mergeAt hrest

theorem mergedInList_noop : ∀ (cs : List RecNode) (u : MSt)
    (mergeAt : List String), mergedInList u.old u.tc mergeAt cs = true →
    mergeChildren u mergeAt cs = u
  | [], _, _, _ => rfl
  | c :: cs', u, mergeAt, hm => by
      simp only [mergedInList, Bool.and_eq_true] at hm
      obtain ⟨h1, h2⟩ := hm
      simp only [mergeChildren]
      rw [mergedIn_noop c u mergeAt h1]
      exact mergedInList_noop cs' u mergeAt h2
end

mutual
/-- Reflectedness is monotone along any tree evolution whose existing
nodes only move along gate-passed upgrade steps. -/
theorem mergedIn_mono : ∀ (n0 : RecNode) (S S' : Node) (tc : Bool)
    (mergeAt0 : List String),
    mergedIn S tc mergeAt0 n0 = true →
    (∀ p kin, getAt S p = some kin →
      ∃ kin', getAt S' p = some kin' ∧
        Relation.ReflTransGen UpStep kin.field.ty.id kin'.field.ty.id) →
    mergedIn S' tc mergeAt0 n0 = true
  | .mk nm p0 f cs, S, S', tc, mergeAt0, hm, hF => by
      simp only [mergedIn] at hm ⊢
      cases hg : getPath S (mergeAt0 ++ p0) with
      | none => rw [hg] at hm; simp at hm
      | some kin =>
          simp only [hg] at hm
          obtain ⟨hna, hrest⟩ := Bool.and_eq_true _ _ |>.mp hm
          have hne : (mergeAt0 ++ p0) ≠ [] := fun hnil => by
            rw [hnil] at hg; simp at hg
          have hga : getAt S (mergeAt0 ++ p0) = some kin := by
            rw [getAt_eq_getPath _ hne]; exact hg
          obtain ⟨kin', hk', hchain⟩ := hF _ kin hga
          have hgp2 : getPath S' (mergeAt0 ++ p0) = some kin' := by
            rw [← getAt_eq_getPath _ hne]; exact hk'
          simp only [hgp2, Bool.and_eq_true]
          constructor
          · cases htc : tc
            · simp [NoActId]
            · rw [htc] at hna
              simp only [NoActId, Bool.not_true, Bool.false_or] at hna ⊢
              exact upChain_preserves _ _ _ hchain hna
          · exact mergedInList_mono cs S S' tc mergeAt0 hrest hF

theorem mergedInList_mono : ∀ (cs : List RecNode) (S S' : Node) (tc : Bool)
    (mergeAt0 : List String),
    mergedInList S tc mergeAt0 cs = true →
    (∀ p kin, getAt S p = some kin →
      ∃ kin', getAt S' p = some kin' ∧
        Relation.ReflTransGen UpStep kin.field.ty.id kin'.field.ty.id) →
    mergedInList S' tc mergeAt0 cs = true
  | [], _, _, _, _, _, _ => rfl
  | c :: cs', S, S', tc, mergeAt0, hm, hF => by
      simp only [mergedInList, Bool.and_eq_true] at hm ⊢
      exact ⟨mergedIn_mono c S S' tc mergeAt0 hm.1 hF,
             mergedInList_mono cs' S S' tc mergeAt0 hm.2 hF⟩
end

/-- `List.Nodup` as a boolean. -/
def nodupB : List String → Bool
  | [] => true
  | x :: xs => !(xs.contains x) && nodupB xs

theorem nodupB_iff : ∀ {l : List String}, nodupB l = true ↔ l.Nodup := by
  intro l
  induction l with
  | nil => simp [nodupB]
  | cons x xs ih => simp [nodupB, List.nodup_cons, ih]

theorem nodupB_sublist {l1 l2 : List String} (hs : List.Sublist l1 l2)
    (h : nodupB l2 = true) : nodupB l1 = true := by
  rw [nodupB_iff] at h ⊢
  exact h.sublist hs

mutual
/-- Well-formedness of a record node below a base path: the stored path is
the base extended by the name, children carry pairwise distinct names, and
children are well-formed below this node's path. -/
def WFr (base : List String) : RecNode → Bool
  | .mk nm pp _ cs =>
      (pp == base ++ [nm]) &&
        (nodupB (cs.map RecNode.name) && WFrAll pp cs)

def WFrAll (base : List String) : List RecNode → Bool
  | [] => true
  | c :: cs => WFr base c && WFrAll base cs
end

/-- Well-formed sibling list: pairwise distinct names, each well-formed. -/
def WFrl (base : List String) (cs : List RecNode) : Bool :=
  nodupB (cs.map RecNode.name) && WFrAll base cs

theorem recToNode_name (c : RecNode) : (recToNode c).name = c.name := by
  cases c; rfl

theorem recToNode_field (c : RecNode) : (recToNode c).field = c.field := by
  cases c; rfl

theorem recToNode_children (c : RecNode) :
    (recToNode c).children = recsToNodes c.children := by
  cases c; rfl

/-- In a copied sibling list with distinct names, lookup finds the copy. -/
theorem firstNamed_recsToNodes : ∀ (cs : List RecNode) (d : RecNode),
    d ∈ cs → nodupB (cs.map RecNode.name) = true →
    firstNamed d.name (recsToNodes cs) = some (recToNode d) := by
  intro cs
  induction cs with
  | nil => intro d hd _; exact absurd hd (List.not_mem_nil _)
  | cons c cs' ih =>
      intro d hd hnd
      simp only [List.map, nodupB, Bool.and_eq_true] at hnd
      obtain ⟨hnc, hrest⟩ := hnd
      simp only [recsToNodes]
      rcases List.mem_cons.mp hd with rfl | hd'
      · obtain ⟨dn, dp, df, dcs⟩ := d
        rw [firstNamed, if_pos (by simp [recToNode])]
      · have hdn : d.name ∈ cs'.map RecNode.name :=
          List.mem_map_of_mem _ hd'
        have hcn : ¬ c.name ∈ cs'.map RecNode.name := by simpa using hnc
        have hneq : (recToNode c).name ≠ d.name := by
          rw [recToNode_name]
          intro he
          exact hcn (by rw [he]; exact hdn)
        rw [firstNamed, if_neg (by simpa using hneq)]
        exact ih d hd' hrest

mutual
/-- A verbatim copy of a well-formed record subtree sitting in the tree at
the subtree's own path is reflected there. -/
theorem copiedMerged : ∀ (c : RecNode) (base : List String) (S : Node)
    (tc : Bool) (kin : Node), WFr base c = true →
    getPath S (base ++ [c.name]) = some kin →
    kin.field.ty.id = c.field.ty.id →
    kin.children = recsToNodes c.children →
    mergedIn S tc [] c = true
  | .mk nm pp f cs, base, S, tc, kin, hwf, h, hid, hch => by
      simp only [WFr, Bool.and_eq_true] at hwf
      obtain ⟨hpp, hnd, hall⟩ := hwf
      have hpp2 : pp = base ++ [nm] := by simpa using hpp
      subst hpp2
      simp only [RecNode.name] at h
      simp only [RecNode.field] at hid
      simp only [RecNode.children] at hch
      simp only [mergedIn, List.nil_append, h, Bool.and_eq_true]
      constructor
      · show NoActId tc kin.field.ty.id f.ty.id = true
        rw [hid]
        simp [NoActId, NoActIdT]
      · apply copiedMergedList cs (base ++ [nm]) S tc hall
        intro d hd
        rw [getPath_append (base ++ [nm]) [d.name] (by simp) (by simp), h]
        simp only [Option.bind]
        rw [getPath_single, Node.lookup, hch]
        exact firstNamed_recsToNodes cs d hd hnd

theorem copiedMergedList : ∀ (cs : List RecNode) (base2 : List String)
    (S : Node) (tc : Bool), WFrAll base2 cs = true →
    (∀ d, d ∈ cs → getPath S (base2 ++ [d.name]) = some (recToNode d)) →
    mergedInList S tc [] cs = true
  | [], _, _, _, _, _ => rfl
  | d :: ds, base2, S, tc, hall, hlk => by
      simp only [WFrAll, Bool.and_eq_true] at hall
      simp only [mergedInList, Bool.and_eq_true]
      constructor
      · exact copiedMerged d base2 S tc (recToNode d) hall.1
          (hlk d (List.mem_cons_self d ds))
          (by rw [recToNode_field]) (recToNode_children d)
      · exact copiedMergedList ds base2 S tc hall.2
          (fun e he => hlk e (List.mem_cons_of_mem _ he))
end

/-- Assembling reflectedness at a hit node: a node present at the record
path that absorbs the record field, together with reflectedness of the
children after their merge, reflects the whole record node. -/
theorem merge_assemble (cs : List RecNode) (u2 : MSt) (nm : String)
    (base2 : List String) (f : FieldV) (kin1 : Node)
    (hk1 : getAt u2.old (base2 ++ [nm]) = some kin1)
    (hna : NoActId u2.tc kin1.field.ty.id f.ty.id = true)
    (hlist : mergedInList (mergeChildren u2 [] cs).old u2.tc [] cs = true) :
    mergedIn (mergeChildren u2 [] cs).old u2.tc []
      (.mk nm (base2 ++ [nm]) f cs) = true := by
  obtain ⟨kin2, hk2, hchain⟩ :=
    mergeChildren_frame cs u2 [] (base2 ++ [nm]) kin1 hk1
  have hgp2 : getPath (mergeChildren u2 [] cs).old (base2 ++ [nm]) =
      some kin2 := by
    rw [← getAt_eq_getPath _ (by simp)]
    exact hk2
  simp only [mergedIn, List.nil_append, hgp2, Bool.and_eq_true]
  refine ⟨?_, hlist⟩
  cases htc : u2.tc
  · simp [NoActId]
  · rw [htc] at hna
    simp only [NoActId, Bool.not_true, Bool.false_or] at hna ⊢
    exact upChain_preserves _ _ _ hchain hna

mutual
/-- Establishment: merging a well-formed record node into a tree holding a
node at the record node's parent path leaves the record node reflected in
the resulting tree. -/
theorem merge_establishes : ∀ (n : RecNode) (u : MSt) (base : List String),
    WFr base n = true → (getAt u.old base).isSome = true →
    mergedIn (mergeNode u [] n).old u.tc [] n = true
  | .mk nm p0 f cs, u, base, hwf, hpre => by
      have hpp2 : p0 = base ++ [nm] := by
        have hw2 := hwf
        simp only [WFr, Bool.and_eq_true] at hw2
        simpa using hw2.1
      subst hpp2
      have hall : WFrAll (base ++ [nm]) cs = true := by
        have hw2 := hwf
        simp only [WFr, Bool.and_eq_true] at hw2
        exact hw2.2.2
      simp only [mergeNode, List.nil_append]
      split
      next hg =>
        split
        next hl =>
          have hbase : base = [] := by
            have h2 := hl
            simp [List.length_append] at h2
            exact h2
          subst hbase
          simp only [List.nil_append] at hg hwf ⊢
          have hmiss : u.old.lookup nm = none := by
            rw [← getPath_single]
            exact hg
          have hgg := getAt_graftWalk_new []
            (.mk nm (u.old.path ++ [nm]) f (recsToNodes cs)) u.old u.old
            (getAt_nil u.old) hmiss
          have hok : getPath
              (graftWalk u.old []
                (.mk nm (u.old.path ++ [nm]) f (recsToNodes cs))) [nm] =
              some (.mk nm (u.old.path ++ [nm]) f (recsToNodes cs)) := by
            rw [← getAt_eq_getPath [nm] (by simp)]
            exact hgg
          exact copiedMerged (.mk nm [nm] f cs) [] _ u.tc
            (.mk nm (u.old.path ++ [nm]) f (recsToNodes cs))
            hwf hok rfl rfl
        next hl =>
          have hbne : base ≠ [] := by
            intro hb
            apply hl
            rw [hb]
            rfl
          split
          next b hpar =>
            have hdrop : (base ++ [nm]).dropLast = base := by simp
            rw [hdrop] at hpar ⊢
            have hgb : getAt u.old base = some b := by
              rw [getAt_eq_getPath base hbne]
              exact hpar
            have hbmiss : b.lookup nm = none := by
              have h2 := getPath_append base [nm] hbne (by simp) u.old
              rw [hg, hpar] at h2
              simp only [Option.bind] at h2
              rw [← getPath_single]
              exact h2.symm
            have hgg := getAt_graftWalk_new base
              (.mk nm (b.path ++ [nm]) f (recsToNodes cs)) u.old b
              hgb hbmiss
            have hok : getPath
                (graftWalk u.old base
                  (.mk nm (b.path ++ [nm]) f (recsToNodes cs)))
                (base ++ [nm]) =
                some (.mk nm (b.path ++ [nm]) f (recsToNodes cs)) := by
              rw [← getAt_eq_getPath (base ++ [nm]) (by simp)]
              exact hgg
            exact copiedMerged (.mk nm (base ++ [nm]) f cs) base _ u.tc
              (.mk nm (b.path ++ [nm]) f (recsToNodes cs))
              hwf hok rfl rfl
          next hpar =>
            exfalso
            have hdrop : (base ++ [nm]).dropLast = base := by simp
            rw [hdrop] at hpar
            rw [getAt_eq_getPath base hbne, hpar] at hpre
            simp at hpre
      next kin0 hg =>
        have hne : (base ++ [nm]) ≠ [] := by simp
        have hka : getAt u.old (base ++ [nm]) = some kin0 := by
          rw [getAt_eq_getPath _ hne]
          exact hg
        have hpre2 : (getAt u.old (base ++ [nm])).isSome = true := by
          rw [hka]; rfl
        split
        next hgd =>
          split
          next t htg =>
            cases hct : UpgradableTypes.contains f.ty.id
            · have hct2 : ¬ f.ty.id ∈ UpgradableTypes := by simpa using hct
              have happ : upgradeApply u (base ++ [nm]) kin0
                  (.mk nm (base ++ [nm]) f cs) t = u := by
                simp [upgradeApply, hct2]
              rw [happ]
              have hna : NoActId u.tc kin0.field.ty.id f.ty.id = true := by
                simp only [NoActId, NoActIdT]
                rw [hct]
                simp
              exact merge_assemble cs u nm base f kin0 hka hna
                (merge_establishes_list cs u (base ++ [nm]) hall hpre2)
            · have hct2 : f.ty.id ∈ UpgradableTypes := by simpa using hct
              have hold : (upgradeApply u (base ++ [nm]) kin0
                  (.mk nm (base ++ [nm]) f cs) t).old
                  = upgradeWalk u.old (base ++ [nm])
                      (upgradeNewField kin0.field t) f.ty := by
                simp [upgradeApply, hct2]
              have hself := getAt_upgradeWalk_self (base ++ [nm])
                (upgradeNewField kin0.field t) f.ty u.old kin0 hka hne
              have hk1 : getAt (upgradeApply u (base ++ [nm]) kin0
                  (.mk nm (base ++ [nm]) f cs) t).old (base ++ [nm]) =
                  some (.mk kin0.name kin0.path
                    (upgradeNewField kin0.field t) kin0.children) := by
                rw [hold]
                exact hself
              have hnat : NoActIdT (stampId kin0.field.ty.id t)
                  f.ty.id = true := by
                rcases gate_passed_target _ _ _ htg hct with rfl | ⟨rfl, hk, hm⟩
                · exact noActIdT_string _
                · rw [hk, hm]
                  rfl
              have htceq : (upgradeApply u (base ++ [nm]) kin0
                  (.mk nm (base ++ [nm]) f cs) t).tc = u.tc := by
                simp [upgradeApply, hct2]
              have hna : NoActId (upgradeApply u (base ++ [nm]) kin0
                    (.mk nm (base ++ [nm]) f cs) t).tc
                  (Node.mk kin0.name kin0.path
                    (upgradeNewField kin0.field t) kin0.children).field.ty.id
                  f.ty.id = true := by
                rw [htceq]
                show NoActId u.tc (upgradeNewField kin0.field t).ty.id
                  f.ty.id = true
                rw [upgradeNewField_id]
                cases htcb : u.tc
                · rfl
                · exact hnat
              have hpre3 : (getAt (upgradeApply u (base ++ [nm]) kin0
                  (.mk nm (base ++ [nm]) f cs) t).old
                  (base ++ [nm])).isSome = true := by
                rw [hk1]; rfl
              have hfin := merge_assemble cs
                (upgradeApply u (base ++ [nm]) kin0
                  (.mk nm (base ++ [nm]) f cs) t) nm base f _ hk1 hna
                (merge_establishes_list cs
                  (upgradeApply u (base ++ [nm]) kin0
                    (.mk nm (base ++ [nm]) f cs) t)
                  (base ++ [nm]) hall hpre3)
              rw [htceq] at hfin
              exact hfin
          next htg =>
            have hna : NoActId u.tc kin0.field.ty.id f.ty.id = true := by
              simp only [NoActId, NoActIdT]
              rw [htg]
              simp
            exact merge_assemble cs u nm base f kin0 hka hna
              (merge_establishes_list cs u (base ++ [nm]) hall hpre2)
        next hgd =>
          have hna : NoActId u.tc kin0.field.ty.id f.ty.id = true := by
            cases htc : u.tc
            · simp [NoActId]
            · by_cases hid : (kin0.field.ty.id == f.ty.id) = true
              · simp only [NoActId, NoActIdT]
                rw [hid]
                rfl
              · exfalso
                have hbeq : FieldV.beq kin0.field f = false :=
                  FieldV.beq_false_of_id_ne (by simpa using hid)
                have hidf : (kin0.field.ty.id == f.ty.id) = false := by
                  simpa using hid
                rw [mergeGuard, htc, hbeq, hidf] at hgd
                simp at hgd
          exact merge_assemble cs u nm base f kin0 hka hna
            (merge_establishes_list cs u (base ++ [nm]) hall hpre2)

theorem merge_establishes_list : ∀ (cs : List RecNode) (u : MSt)
    (base : List String), WFrAll base cs = true →
    (getAt u.old base).isSome = true →
    mergedInList (mergeChildren u [] cs).old u.tc [] cs = true
  | [], _, _, _, _ => rfl
  | c :: cs', u, base, hall, hpre => by
      simp only [WFrAll, Bool.and_eq_true] at hall
      simp only [mergeChildren, mergedInList, Bool.and_eq_true]
      constructor
      · have h1 := merge_establishes c u base hall.1 hpre
        exact mergedIn_mono c (mergeNode u [] c).old
          (mergeChildren (mergeNode u [] c) [] cs').old u.tc [] h1
          (fun p kin h => mergeChildren_frame cs' (mergeNode u [] c) [] p kin h)
      · have hpre2 : (getAt (mergeNode u [] c).old base).isSome = true := by
          cases hb : getAt u.old base with
          | none => rw [hb] at hpre; simp at hpre
          | some bb =>
              obtain ⟨kin', hk', _⟩ := mergeNode_frame c u [] base bb hb
              rw [hk']; rfl
        have h2 := merge_establishes_list cs' (mergeNode u [] c) base
          hall.2 hpre2
        rw [mergeNode_tc c u []] at h2
        exact h2
end

theorem WFrAll_append {b : List String} : ∀ {l1 l2 : List RecNode},
    WFrAll b l1 = true → WFrAll b l2 = true → WFrAll b (l1 ++ l2) = true := by
  intro l1
  induction l1 with
  | nil => intro l2 _ h2; exact h2
  | cons c cs ih =>
      intro l2 h1 h2
      simp only [WFrAll, Bool.and_eq_true] at h1
      simp only [List.cons_append, WFrAll, Bool.and_eq_true]
      exact ⟨h1.1, ih h1.2 h2⟩

/-- `sliceElemType` assigns at most one element child. -/
theorem sliceElem_children_len (o : ClassOpts) (lp : List String)
    (k : String) (x : Value) (xs : List Value) :
    (sliceElem o lp k x xs).children = [] ∨
      ∃ c, (sliceElem o lp k x xs).children = [c] := by
  cases x with
  | vmap ft => exact .inr ⟨_, rfl⟩
  | vlist ys =>
      cases ys with
      | nil => exact .inl rfl
      | cons y ys2 => exact .inr ⟨_, rfl⟩
  | vnull => exact .inl rfl
  | vbool => exact .inl rfl
  | vint => exact .inl rfl
  | vint8 => exact .inl rfl
  | vint16 => exact .inl rfl
  | vint32 => exact .inl rfl
  | vint64 => exact .inl rfl
  | vuint => exact .inl rfl
  | vuint8 => exact .inl rfl
  | vuint16 => exact .inl rfl
  | vuint32 => exact .inl rfl
  | vuint64 => exact .inl rfl
  | vfloat32 => exact .inl rfl
  | vfloat64 => exact .inl rfl
  | vnumber s => exact .inl rfl
  | vtime => exact .inl rfl
  | vstr s => exact .inl rfl
  | vbytes => exact .inl rfl

/-- One `mapToArrow` entry assigns no node or one node named by its key. -/
theorem walkEntry_names (o : ClassOpts) (pfx : List String) (k : String)
    (v : Value) :
    (walkEntry o pfx k v).nodes.map RecNode.name = [] ∨
      (walkEntry o pfx k v).nodes.map RecNode.name = [k] := by
  cases v
  case vmap t =>
    simp only [walkEntry]
    by_cases h : ((walkEntries o (pfx ++ [k]) t).nodes.length != 0) = true
    · rw [if_pos h]; exact .inr rfl
    · rw [if_neg h]; exact .inl rfl
  case vlist xs =>
    cases xs with
    | nil => exact .inl rfl
    | cons x xs2 => exact .inr rfl
  case vnull => exact .inl rfl
  all_goals exact .inr rfl

/-- The names assigned by a `mapToArrow` walk are a sublist of the record
keys. -/
theorem walkEntries_names : ∀ (entries : List (String × Value))
    (o : ClassOpts) (pfx : List String),
    List.Sublist ((walkEntries o pfx entries).nodes.map RecNode.name)
      (entries.map Prod.fst) := by
  intro entries
  induction entries with
  | nil => intro o pfx; simp [walkEntries]
  | cons e rest ih =>
      intro o pfx
      obtain ⟨k, v⟩ := e
      simp only [walkEntries, List.map_append]
      rcases walkEntry_names o pfx k v with h1 | h1
      · rw [h1, List.nil_append]
        exact List.Sublist.cons _ (ih o pfx)
      · rw [h1]
        exact List.Sublist.cons₂ _ (ih o pfx)

mutual
/-- Go maps carry pairwise distinct keys: the decoded-record predicate the
entry points receive from `reader.InputMap`. -/
def uniqV : Value → Bool
  | .vmap m => nodupB (m.map Prod.fst) && uniqEntries m
  | .vlist xs => uniqList xs
  | _ => true

def uniqEntries : List (String × Value) → Bool
  | [] => true
  | (_, v) :: rest => uniqV v && uniqEntries rest

def uniqList : List Value → Bool
  | [] => true
  | x :: xs => uniqV x && uniqList xs
end

mutual
/-- The walker assigns well-formed nodes: stored paths extend the prefix by
the key, sibling names are pairwise distinct (keys of a unique-keyed map),
recursively. -/
theorem walkEntries_wf : ∀ (entries : List (String × Value)) (o : ClassOpts)
    (pfx : List String), uniqEntries entries = true →
    WFrAll pfx (walkEntries o pfx entries).nodes = true
  | [], _, _, _ => rfl
  | (k, v) :: rest, o, pfx, hu => by
      simp only [uniqEntries, Bool.and_eq_true] at hu
      simp only [walkEntries]
      exact WFrAll_append (walkEntry_wf v o pfx k hu.1)
        (walkEntries_wf rest o pfx hu.2)

theorem walkEntry_wf : ∀ (v : Value) (o : ClassOpts) (pfx : List String)
    (k : String), uniqV v = true →
    WFrAll pfx (walkEntry o pfx k v).nodes = true
  | .vmap t, o, pfx, k, hu => by
      simp only [uniqV, Bool.and_eq_true] at hu
      simp only [walkEntry]
      split
      · simp only [WFrAll, WFr, Bool.and_eq_true]
        refine ⟨⟨?_, ?_, ?_⟩, trivial⟩
        · simp
        · exact nodupB_sublist (walkEntries_names t o (pfx ++ [k])) hu.1
        · exact walkEntries_wf t o (pfx ++ [k]) hu.2
      · rfl
  | .vlist [], _, _, _, _ => rfl
  | .vlist (x :: xs), o, pfx, k, hu => by
      simp only [uniqV, uniqList, Bool.and_eq_true] at hu
      simp only [walkEntry]
      simp only [WFrAll, WFr, Bool.and_eq_true]
      refine ⟨⟨?_, ?_, ?_⟩, trivial⟩
      · simp
      · rcases sliceElem_children_len o (pfx ++ [k]) k x xs with h | ⟨c, h⟩ <;>
          rw [h] <;> simp [nodupB]
      · exact sliceElem_wf x xs o (pfx ++ [k]) k hu.1 hu.2
  | .vnull, _, _, _, _ => rfl
  | .vbool, o, pfx, k, _ => by simp [walkEntry, WFrAll, WFr, nodupB]
  | .vint, o, pfx, k, _ => by simp [walkEntry, WFrAll, WFr, nodupB]
  | .vint8, o, pfx, k, _ => by simp [walkEntry, WFrAll, WFr, nodupB]
  | .vint16, o, pfx, k, _ => by simp [walkEntry, WFrAll, WFr, nodupB]
  | .vint32, o, pfx, k, _ => by simp [walkEntry, WFrAll, WFr, nodupB]
  | .vint64, o, pfx, k, _ => by simp [walkEntry, WFrAll, WFr, nodupB]
  | .vuint, o, pfx, k, _ => by simp [walkEntry, WFrAll, WFr, nodupB]
  | .vuint8, o, pfx, k, _ => by simp [walkEntry, WFrAll, WFr, nodupB]
  | .vuint16, o, pfx, k, _ => by simp [walkEntry, WFrAll, WFr, nodupB]
  | .vuint32, o, pfx, k, _ => by simp [walkEntry, WFrAll, WFr, nodupB]
  | .vuint64, o, pfx, k, _ => by simp [walkEntry, WFrAll, WFr, nodupB]
  | .vfloat32, o, pfx, k, _ => by simp [walkEntry, WFrAll, WFr, nodupB]
  | .vfloat64, o, pfx, k, _ => by simp [walkEntry, WFrAll, WFr, nodupB]
  | .vnumber s, o, pfx, k, _ => by simp [walkEntry, WFrAll, WFr, nodupB]
  | .vtime, o, pfx, k, _ => by simp [walkEntry, WFrAll, WFr, nodupB]
  | .vstr s, o, pfx, k, _ => by simp [walkEntry, WFrAll, WFr, nodupB]
  | .vbytes, o, pfx, k, _ => by simp [walkEntry, WFrAll, WFr, nodupB]

theorem sliceElem_wf : ∀ (x : Value) (xs : List Value) (o : ClassOpts)
    (listPath : List String) (k : String), uniqV x = true →
    uniqList xs = true →
    WFrAll listPath (sliceElem o listPath k x xs).children = true
  | .vmap ft, xs, o, listPath, k, hu, _ => by
      simp only [uniqV, Bool.and_eq_true] at hu
      simp only [sliceElem]
      simp only [WFrAll, WFr, Bool.and_eq_true]
      refine ⟨⟨?_, ?_, ?_⟩, trivial⟩
      · simp
      · exact nodupB_sublist
          (walkEntries_names ft o (listPath ++ [k ++ ".elem"])) hu.1
      · exact walkEntries_wf ft o (listPath ++ [k ++ ".elem"]) hu.2
  | .vlist [], _, _, _, _, _, _ => rfl
  | .vlist (y :: ys), xs, o, listPath, k, hu, _ => by
      simp only [uniqV, uniqList, Bool.and_eq_true] at hu
      simp only [sliceElem]
      simp only [WFrAll, WFr, Bool.and_eq_true]
      refine ⟨⟨?_, ?_, ?_⟩, trivial⟩
      · simp
      · rcases sliceElem_children_len o (listPath ++ [k ++ ".elem"])
          (k ++ ".elem") y ys with h | ⟨c, h⟩ <;> rw [h] <;> simp [nodupB]
      · exact sliceElem_wf y ys o (listPath ++ [k ++ ".elem"])
          (k ++ ".elem") hu.1 hu.2
  | .vnull, _, _, _, _, _, _ => rfl
  | .vbool, _, _, _, _, _, _ => rfl
  | .vint, _, _, _, _, _, _ => rfl
  | .vint8, _, _, _, _, _, _ => rfl
  | .vint16, _, _, _, _, _, _ => rfl
  | .vint32, _, _, _, _, _, _ => rfl
  | .vint64, _, _, _, _, _, _ => rfl
  | .vuint, _, _, _, _, _, _ => rfl
  | .vuint8, _, _, _, _, _, _ => rfl
  | .vuint16, _, _, _, _, _, _ => rfl
  | .vuint32, _, _, _, _, _, _ => rfl
  | .vuint64, _, _, _, _, _, _ => rfl
  | .vfloat32, _, _, _, _, _, _ => rfl
  | .vfloat64, _, _, _, _, _, _ => rfl
  | .vnumber s, _, _, _, _, _, _ => rfl
  | .vtime, _, _, _, _, _, _ => rfl
  | .vstr s, _, _, _, _, _, _ => rfl
  | .vbytes, _, _, _, _, _, _ => rfl
end

/-- The merge sub-state produced by one successful `Unify` call. -/
def unifyMS (u : Bod) (m : List (String × Value)) : MSt :=
  mergeChildren
    ⟨u.old, u.changes,
      knownInsertAll u.known (walkRecord u.classOpts m).2.2,
      u.typeConversion⟩
    [] (walkRecord u.classOpts m).1.children

/-- `Unify` on a decoded map under the count cap, in closed form. -/
theorem unify_ok (u : Bod) (m : List (String × Value))
    (hcnt : ¬ u.count > u.maxCount) :
    unify u (.vmap m) =
      ({ u with
          latest := some (walkRecord u.classOpts m).1
          pending := pendInsertAll u.pending (walkRecord u.classOpts m).2.1
          known := (unifyMS u m).known
          old := (unifyMS u m).old
          changes := (unifyMS u m).changes
          count := u.count + 1 }, none) := by
  simp [unify, hcnt, inputMap, Bod.mst, unifyMS]

/-- C7.  Unify is idempotent per record: for any state and any decoded
record (a Go map, whose keys are pairwise distinct at every nesting level,
as Go map semantics guarantees), a second `Unify` of the same record
appends no change-log entries and leaves the exported schema unchanged. -/
theorem C7_unify_idempotent (u : Bod) (a : Value)
    (huniq : uniqV a = true) :
    (unify (unify u a).1 a).1.changes = (unify u a).1.changes ∧
    schemaOf (unify (unify u a).1 a).1 = schemaOf (unify u a).1 := by
  by_cases hcnt : u.count > u.maxCount
  · constructor <;> simp [unify, hcnt]
  · cases a with
    | vmap m =>
      simp only [uniqV, Bool.and_eq_true] at huniq
      have hwf : WFrAll [] (walkEntries u.classOpts [] m).nodes = true :=
        walkEntries_wf m u.classOpts [] huniq.2
      have hestab : mergedInList (unifyMS u m).old u.typeConversion []
          (walkRecord u.classOpts m).1.children = true :=
        merge_establishes_list (walkRecord u.classOpts m).1.children
          ⟨u.old, u.changes,
            knownInsertAll u.known (walkRecord u.classOpts m).2.2,
            u.typeConversion⟩ [] hwf rfl
      have h1c : (unify u (.vmap m)).1.changes = (unifyMS u m).changes := by
        rw [unify_ok u m hcnt]
      have h1o : (unify u (.vmap m)).1.old = (unifyMS u m).old := by
        rw [unify_ok u m hcnt]
      have h1tc : (unify u (.vmap m)).1.typeConversion =
          u.typeConversion := by
        rw [unify_ok u m hcnt]
      have h1co : (unify u (.vmap m)).1.classOpts = u.classOpts := by
        rw [unify_ok u m hcnt]
        rfl
      have h1cnt : (unify u (.vmap m)).1.count = u.count + 1 := by
        rw [unify_ok u m hcnt]
      have h1max : (unify u (.vmap m)).1.maxCount = u.maxCount := by
        rw [unify_ok u m hcnt]
      by_cases hcnt2 : (unify u (.vmap m)).1.count >
          (unify u (.vmap m)).1.maxCount
      · set R1 := (unify u (Value.vmap m)).1 with hR1
        constructor <;> simp [unify, hcnt2]
      · have hkey : unifyMS (unify u (.vmap m)).1 m =
            ⟨(unifyMS u m).old, (unifyMS u m).changes,
              knownInsertAll (unify u (.vmap m)).1.known
                (walkRecord u.classOpts m).2.2,
              u.typeConversion⟩ := by
          simp only [unifyMS]
          rw [h1o, h1c, h1tc, h1co]
          exact mergedInList_noop (walkRecord u.classOpts m).1.children
            ⟨(unifyMS u m).old, (unifyMS u m).changes,
              knownInsertAll (unify u (.vmap m)).1.known
                (walkRecord u.classOpts m).2.2,
              u.typeConversion⟩ [] hestab
        have e2 := unify_ok (unify u (.vmap m)).1 m hcnt2
        constructor
        · have h2c : (unify (unify u (.vmap m)).1 (.vmap m)).1.changes =
              (unifyMS (unify u (.vmap m)).1 m).changes := by
            rw [e2]
          rw [h2c, hkey]
          exact h1c.symm
        · have h2o : (unify (unify u (.vmap m)).1 (.vmap m)).1.old =
              (unifyMS (unify u (.vmap m)).1 m).old := by
            rw [e2]
          simp only [schemaOf]
          rw [h2o, hkey, h1o]
    | vnull => exact ⟨by simp [unify, hcnt, inputMap], by simp [unify, hcnt, inputMap]⟩
    | vbool => exact ⟨by simp [unify, hcnt, inputMap], by simp [unify, hcnt, inputMap]⟩
    | vint => exact ⟨by simp [unify, hcnt, inputMap], by simp [unify, hcnt, inputMap]⟩
    | vint8 => exact ⟨by simp [unify, hcnt, inputMap], by simp [unify, hcnt, inputMap]⟩
    | vint16 => exact ⟨by simp [unify, hcnt, inputMap], by simp [unify, hcnt, inputMap]⟩
    | vint32 => exact ⟨by simp [unify, hcnt, inputMap], by simp [unify, hcnt, inputMap]⟩
    | vint64 => exact ⟨by simp [unify, hcnt, inputMap], by simp [unify, hcnt, inputMap]⟩
    | vuint => exact ⟨by simp [unify, hcnt, inputMap], by simp [unify, hcnt, inputMap]⟩
    | vuint8 => exact ⟨by simp [unify, hcnt, inputMap], by simp [unify, hcnt, inputMap]⟩
    | vuint16 => exact ⟨by simp [unify, hcnt, inputMap], by simp [unify, hcnt, inputMap]⟩
    | vuint32 => exact ⟨by simp [unify, hcnt, inputMap], by simp [unify, hcnt, inputMap]⟩
    | vuint64 => exact ⟨by simp [unify, hcnt, inputMap], by simp [unify, hcnt, inputMap]⟩
    | vfloat32 => exact ⟨by simp [unify, hcnt, inputMap], by simp [unify, hcnt, inputMap]⟩
    | vfloat64 => exact ⟨by simp [unify, hcnt, inputMap], by simp [unify, hcnt, inputMap]⟩
    | vnumber s => exact ⟨by simp [unify, hcnt, inputMap], by simp [unify, hcnt, inputMap]⟩
    | vtime => exact ⟨by simp [unify, hcnt, inputMap], by simp [unify, hcnt, inputMap]⟩
    | vstr s => exact ⟨by simp [unify, hcnt, inputMap], by simp [unify, hcnt, inputMap]⟩
    | vbytes => exact ⟨by simp [unify, hcnt, inputMap], by simp [unify, hcnt, inputMap]⟩
    | vlist xs => exact ⟨by simp [unify, hcnt, inputMap], by simp [unify, hcnt, inputMap]⟩

/-- Witness for C7 at the S3 state and a one-entry record. -/
theorem C7_unify_idempotent_witness :
    uniqV (.vmap [("a", Value.vint)]) = true ∧
    ((unify (unify s3State (.vmap [("a", Value.vint)])).1
        (.vmap [("a", Value.vint)])).1.changes =
      (unify s3State (.vmap [("a", Value.vint)])).1.changes ∧
     schemaOf (unify (unify s3State (.vmap [("a", Value.vint)])).1
        (.vmap [("a", Value.vint)])).1 =
      schemaOf (unify s3State (.vmap [("a", Value.vint)])).1) :=
  ⟨rfl, C7_unify_idempotent s3State (.vmap [("a", Value.vint)]) rfl⟩

/-- Frame through one `Unify` call: nodes persist, ids move only along
gate-passed upgrade steps. -/
theorem unify_old_frame (b : Bod) (a : Value) (p : List String) (kin : Node)
    (h : getAt b.old p = some kin) :
    ∃ kin', getAt (unify b a).1.old p = some kin' ∧
      Relation.ReflTransGen UpStep kin.field.ty.id kin'.field.ty.id := by
  by_cases hcnt : b.count > b.maxCount
  · exact ⟨kin, by simp [unify, hcnt, h], .refl⟩
  · cases hin : inputMap a with
    | error e => exact ⟨kin, by simp [unify, hcnt, hin, h], .refl⟩
    | ok m =>
        have ha : a = Value.vmap m := by
          cases a <;> simp_all [inputMap]
        subst ha
        have hcomp : (unify b (.vmap m)).1.old = (unifyMS b m).old := by
          rw [unify_ok b m hcnt]
        rw [hcomp]
        simp only [unifyMS]
        exact mergeChildren_frame _ _ [] p kin h

/-- Frame through one `UnifyAtPath` call. -/
theorem unifyAtPath_old_frame (b : Bod) (a : Value) (mp : String)
    (p : List String) (kin : Node) (h : getAt b.old p = some kin) :
    ∃ kin', getAt (unifyAtPath b a mp).1.old p = some kin' ∧
      Relation.ReflTransGen UpStep kin.field.ty.id kin'.field.ty.id := by
  by_cases hcnt : b.count > b.maxCount
  · exact ⟨kin, by simp [unifyAtPath, hcnt, h], .refl⟩
  · by_cases hknown : mp ∈ b.known
    · cases hin : inputMap a with
      | error e =>
          exact ⟨kin, by simp [unifyAtPath, hcnt, hknown, hin, h], .refl⟩
      | ok m =>
          have ha : a = Value.vmap m := by
            cases a <;> simp_all [inputMap]
          subst ha
          have hold : (unifyAtPath b (.vmap m) mp).1.old =
              (mergeChildren
                ⟨b.old, b.changes,
                  knownInsertAll b.known (walkRecord b.classOpts m).2.2,
                  b.typeConversion⟩
                (if mp.length == 0 || mp == "$" then []
                 else splitOnDots (trimDollar mp))
                (walkRecord b.classOpts m).1.children).old := by
            simp [unifyAtPath, hcnt, hknown, hin, Bod.mst]
          rw [hold]
          exact mergeChildren_frame _ _ _ p kin h
    · exact ⟨kin, by simp [unifyAtPath, hcnt, hknown, h], .refl⟩


/- ------------------------------------------------------------------ -/
/- The full childmap resolution and the broken String attractor.       -/
/- ------------------------------------------------------------------ -/

/-- The `childmap` entry for a name after all assignments:
`assignChild` (`src/schema.go:99-101`) stores
`f.childmap[child.name] = child`, so with repeated sibling names the most
recently assigned child wins. -/
def lastNamed (k : String) : List Node → Option Node
  | [] => none
  | c :: cs =>
      match lastNamed k cs with
      | some d => some d
      | none => if c.name == k then some c else none

theorem lastNamed_eq_none_of_not_mem (k : String) :
    ∀ cs : List Node, ¬ k ∈ cs.map Node.name → lastNamed k cs = none := by
  intro cs
  induction cs with
  | nil => intro _; rfl
  | cons c cs ih =>
      intro hk
      simp only [List.map, List.mem_cons, not_or] at hk
      simp only [lastNamed, ih hk.2]
      rw [if_neg]
      simp only [beq_iff_eq]
      exact fun h => hk.1 h.symm

/-- On a duplicate-free sibling list the `childmap` resolution is the
unique (first) match. -/
theorem firstNamed_eq_lastNamed (k : String) :
    ∀ cs : List Node, nodupB (cs.map Node.name) = true →
    lastNamed k cs = firstNamed k cs := by
  intro cs
  induction cs with
  | nil => intro _; rfl
  | cons c cs ih =>
      intro hnd
      obtain ⟨cn, cp, cf, ccs⟩ := c
      simp only [List.map, nodupB, Node.name, Bool.and_eq_true] at hnd
      obtain ⟨hnc, hrest⟩ := hnd
      simp only [lastNamed, firstNamed]
      by_cases hc : cn = k
      · subst hc
        have hmem : ¬ cn ∈ cs.map Node.name := by simpa using hnc
        simp [lastNamed_eq_none_of_not_mem cn cs hmem]
      · rw [ih hrest]
        cases firstNamed k cs <;> simp [hc]

/-- `fieldPos.getPath` through the `childmap` entries
(`src/schema.go:139`), the resolution the program actually reads. -/
def Node.lookupCm (n : Node) (k : String) : Option Node :=
  lastNamed k n.children

def getPathCm : Node → List String → Option Node
  | _, [] => none
  | n, [k] => n.lookupCm k
  | n, k :: ks =>
      match n.lookupCm k with
      | none => none
      | some c => getPathCm c ks

/-- The type resolved at a position through `childmap`. -/
def fieldTyAtCm (S : Node) (p : List String) : Option DataType :=
  (getPathCm S p).map fun k => k.field.ty

/-- `NewBodkin({"a": "x", "m": {"b": 1}})`: `$a` is a String leaf, `$m` a
struct and a key of the known store. -/
def c8BugState : Bod :=
  newBodkin ⟨true, false, true⟩
    [("a", .vstr "x"), ("m", .vmap [("b", .vint)])]

/-- C8.  The String attractor is broken in the code: with `$a` a String
leaf, `UnifyAtPath({"a": 1}, "$m")` succeeds, and — because `merge` grafts
every top-level record field at the ROOT when its path lookup misses,
ignoring the mount path — appends a second root child named `a` (root
children `a, m, a`); `assignChild` overwrites `childmap["a"]` with it, so
the type the program thenceforth resolves at `$a` is Int64, not String. -/
theorem C8_string_attractor_broken_by_root_graft :
    fieldTyAtCm c8BugState.old ["a"] = some .utf8 ∧
    (unifyAtPath c8BugState (.vmap [("a", Value.vint)]) "$m").2 = none ∧
    (unifyAtPath c8BugState
        (.vmap [("a", Value.vint)]) "$m").1.old.children.map Node.name =
      ["a", "m", "a"] ∧
    fieldTyAtCm (unifyAtPath c8BugState
      (.vmap [("a", Value.vint)]) "$m").1.old ["a"] = some .int64 :=
  ⟨rfl, rfl, rfl, rfl⟩
